import Mathlib

/-!
Verification of core behaviors of the `oecddatabuilder` package
(`databuilder.py`, `recipe_loader.py`) through a shallow embedding in Lean.

Periods are embedded as absolute indices (`Nat`): for quarterly data the
index is `year * 4 + (quarter - 1)`, for monthly `year * 12 + (month - 1)`,
for yearly the year itself.  `pd.period_range(start, end, freq)` is the list
of consecutive indices from start to end inclusive.
-/

namespace OECD

/-- Data frequency, `freq` in `OECDAPI_Databuilder` ("Q", "M", "Y"). -/
inductive Freq where
  | Q
  | M
  | Y
deriving DecidableEq

/-- Zero-padded two-digit rendering, as `strftime("%m")` produces. -/
def pad2 (n : Nat) : String :=
  if n < 10 then "0" ++ Nat.repr n else Nat.repr n

/-- Frequency-specific label for an absolute period index, mirroring the
label construction in `OECDAPI_Databuilder._build_time_chunks`:
quarterly `f"{p.year}-Q{p.quarter}"`, monthly `p.strftime("%Y-%m")`,
yearly `str(p)`. -/
def formatLabel : Freq → Nat → String
  | .Q, p => Nat.repr (p / 4) ++ "-Q" ++ Nat.repr (p % 4 + 1)
  | .M, p => Nat.repr (p / 12) ++ "-" ++ pad2 (p % 12 + 1)
  | .Y, p => Nat.repr p

/-- `pd.period_range(start, end, freq)`: consecutive absolute period
indices from `s` to `e` inclusive (empty when `s > e`). -/
def periodRange (s e : Nat) : List Nat :=
  List.range' s (e + 1 - s)

/-- The slicing loop of `_build_time_chunks`:
`for i in range(0, len(period_range), chunk_size): chunk = period_range[i:i+chunk_size]`. -/
def chunkPeriods : Nat → List Nat → List (List Nat)
  | _, [] => []
  | 0, _ :: _ => []
  | cs + 1, x :: xs => (x :: xs.take cs) :: chunkPeriods (cs + 1) (xs.drop cs)
termination_by _ l => l.length
decreasing_by
  simp only [List.length_cons, List.length_drop]
  omega

/-- `OECDAPI_Databuilder._build_time_chunks`: each slice of the period range
becomes a `(chunk_start, chunk_end)` label pair from its first and last
periods. -/
def build_time_chunks (freq : Freq) (chunkSize : Nat) (s e : Nat) :
    List (String × String) :=
  (chunkPeriods chunkSize (periodRange s e)).map
    (fun c => (formatLabel freq c.headI, formatLabel freq c.getLastI))

theorem chunkPeriods_cons (cs : Nat) (x : Nat) (xs : List Nat) :
    chunkPeriods (cs + 1) (x :: xs)
      = (x :: xs.take cs) :: chunkPeriods (cs + 1) (xs.drop cs) := by
  simp [chunkPeriods]

theorem chunkPeriods_flatten (cs : Nat) (l : List Nat) :
    (chunkPeriods (cs + 1) l).flatten = l := by
  generalize hn : l.length = n
  induction n using Nat.strong_induction_on generalizing l with
  | _ n ih =>
    cases l with
    | nil => simp [chunkPeriods]
    | cons x xs =>
      rw [chunkPeriods_cons, List.flatten_cons,
        ih (xs.drop cs).length (by simp at hn ⊢; omega) (xs.drop cs) rfl,
        List.cons_append, List.take_append_drop]

theorem chunkPeriods_mem_length (cs : Nat) (l : List Nat) :
    ∀ c ∈ chunkPeriods (cs + 1) l, c ≠ [] ∧ c.length ≤ cs + 1 := by
  generalize hn : l.length = n
  induction n using Nat.strong_induction_on generalizing l with
  | _ n ih =>
    cases l with
    | nil => simp [chunkPeriods]
    | cons x xs =>
      intro c hc
      rw [chunkPeriods_cons] at hc
      rcases List.mem_cons.mp hc with rfl | hc'
      · refine ⟨by simp, ?_⟩
        simp only [List.length_cons]
        have := List.length_take_le cs xs
        omega
      · exact ih (xs.drop cs).length (by simp at hn ⊢; omega) (xs.drop cs) rfl c hc'

theorem chunkPeriods_dropLast_length (cs : Nat) (l : List Nat) :
    ∀ c ∈ (chunkPeriods (cs + 1) l).dropLast, c.length = cs + 1 := by
  generalize hn : l.length = n
  induction n using Nat.strong_induction_on generalizing l with
  | _ n ih =>
    cases l with
    | nil => simp [chunkPeriods]
    | cons x xs =>
      intro c hc
      by_cases hrest : chunkPeriods (cs + 1) (xs.drop cs) = []
      · simp [chunkPeriods_cons, hrest] at hc
      · rw [chunkPeriods_cons, List.dropLast_cons_of_ne_nil hrest] at hc
        rcases List.mem_cons.mp hc with rfl | hc'
        · -- a non-last chunk is full: the remainder being nonempty forces
          -- the take to be saturated
          have hlen : cs ≤ xs.length := by
            by_contra hlt
            push_neg at hlt
            have : xs.drop cs = [] := List.drop_eq_nil_of_le (by omega)
            simp [chunkPeriods, this] at hrest
          simp [List.length_take, Nat.min_eq_left hlen]
        · exact ih (xs.drop cs).length (by simp at hn ⊢; omega) (xs.drop cs) rfl c hc'

/-- C1: for every start and end period, frequency and `chunk_size ≥ 1`, the
time-chunk planner `_build_time_chunks` partitions the inclusive period range
into contiguous, chronologically ordered, non-overlapping sub-ranges of at
most `chunk_size` periods each, only the last possibly shorter, and labels
each chunk's endpoints with the frequency-specific label (`"YYYY-Qn"`,
`"YYYY-MM"`, `"YYYY"`, per `formatLabel`) of its first and last period. -/
theorem C1_time_chunk_planner (freq : Freq) (cs s e : Nat) (hcs : 1 ≤ cs) :
    (chunkPeriods cs (periodRange s e)).flatten = periodRange s e ∧
    List.Pairwise (· < ·) (periodRange s e) ∧
    (∀ c ∈ chunkPeriods cs (periodRange s e), c ≠ [] ∧ c.length ≤ cs) ∧
    (∀ c ∈ (chunkPeriods cs (periodRange s e)).dropLast, c.length = cs) ∧
    build_time_chunks freq cs s e
      = (chunkPeriods cs (periodRange s e)).map
          (fun c => (formatLabel freq c.headI, formatLabel freq c.getLastI)) := by
  obtain ⟨k, rfl⟩ : ∃ k, cs = k + 1 := ⟨cs - 1, by omega⟩
  refine ⟨chunkPeriods_flatten k _, ?_, chunkPeriods_mem_length k _,
    chunkPeriods_dropLast_length k _, rfl⟩
  exact List.pairwise_lt_range' s (e + 1 - s) 1

theorem C1_time_chunk_planner_witness :
    (1 : Nat) ≤ 1 ∧
    ((chunkPeriods 1 (periodRange 8096 8098)).flatten = periodRange 8096 8098 ∧
     List.Pairwise (· < ·) (periodRange 8096 8098) ∧
     (∀ c ∈ chunkPeriods 1 (periodRange 8096 8098), c ≠ [] ∧ c.length ≤ 1) ∧
     (∀ c ∈ (chunkPeriods 1 (periodRange 8096 8098)).dropLast, c.length = 1) ∧
     build_time_chunks .Q 1 8096 8098
       = (chunkPeriods 1 (periodRange 8096 8098)).map
           (fun c => (formatLabel .Q c.headI, formatLabel .Q c.getLastI))) :=
  ⟨by decide, C1_time_chunk_planner .Q 1 8096 8098 (by decide)⟩

/-! ### Filesystem model for `RecipeLoader._atomic_write` (C3, C8)

A filesystem is a mapping from path to file content, embedded as an
association list.  `_atomic_write` opens `output_file + ".tmp"` for writing
(truncating it), streams the JSON text into it, then calls
`os.replace(temp_file, output_file)`.  The trace of observable filesystem
states is: one state per written prefix of the payload (including the empty
prefix from opening the file), followed by the state after the atomic
rename. -/

/-- A filesystem: each path maps to the content of the file there, if any. -/
def FS := String → Option String

/-- Content of `path`, if the file exists. -/
def getFile (fs : FS) (path : String) : Option String := fs path

/-- Create or overwrite `path` with `content`. -/
def setFile (fs : FS) (path content : String) : FS :=
  fun q => if q = path then some content else fs q

/-- Delete `path`. -/
def removeFile (fs : FS) (path : String) : FS :=
  fun q => if q = path then none else fs q

/-- The temporary path used by `_atomic_write`: `output_file + ".tmp"`. -/
def tmpPath (outputFile : String) : String := outputFile ++ ".tmp"

/-- The filesystem states observable while `_atomic_write` is streaming the
serialized payload into the temporary file: after opening (empty file) and
after each written prefix. -/
def writePhaseStates (fs : FS) (outputFile content : String) : List FS :=
  (List.range (content.length + 1)).map
    (fun n => setFile fs (tmpPath outputFile) (String.mk (content.data.take n)))

/-- The filesystem state after `os.replace(temp_file, output_file)`:
the temporary file is renamed over the target. -/
def renameState (fs : FS) (outputFile content : String) : FS :=
  setFile (removeFile fs (tmpPath outputFile)) outputFile content

/-- All observable states of one `_atomic_write(output_file, data)` run. -/
def atomicWriteStates (fs : FS) (outputFile content : String) : List FS :=
  writePhaseStates fs outputFile content ++ [renameState fs outputFile content]

theorem getFile_setFile_ne (fs : FS) (p q c : String) (h : p ≠ q) :
    getFile (setFile fs q c) p = getFile fs p := by
  simp [getFile, setFile, h]

theorem getFile_setFile_self (fs : FS) (p c : String) :
    getFile (setFile fs p c) p = some c := by
  simp [getFile, setFile]

theorem tmpPath_ne (outputFile : String) : outputFile ≠ tmpPath outputFile := by
  intro h
  have hlen := congrArg String.length h
  rw [tmpPath, String.length_append] at hlen
  have h4 : (".tmp" : String).length = 4 := rfl
  omega

/-- C3: every persistence of the recipe configuration streams the full JSON
into `output_file + ".tmp"` and then renames it over the target, so (i) in
every observable state before the rename, the target file's content is
byte-identical to its pre-save content, (ii) after the rename the target
holds exactly the full payload, and (iii) a reader of the target path only
ever observes the old content or the complete new content, never a partial
write. -/
theorem C3_atomic_write (fs : FS) (outputFile content : String) :
    (∀ s ∈ writePhaseStates fs outputFile content,
        getFile s outputFile = getFile fs outputFile) ∧
    getFile (renameState fs outputFile content) outputFile = some content ∧
    (∀ s ∈ atomicWriteStates fs outputFile content,
        getFile s outputFile = getFile fs outputFile ∨
        getFile s outputFile = some content) := by
  have hwrite : ∀ s ∈ writePhaseStates fs outputFile content,
      getFile s outputFile = getFile fs outputFile := by
    intro s hs
    simp only [writePhaseStates, List.mem_map] at hs
    obtain ⟨n, -, rfl⟩ := hs
    exact getFile_setFile_ne _ _ _ _ (tmpPath_ne outputFile)
  have hfinal : getFile (renameState fs outputFile content) outputFile
      = some content := getFile_setFile_self _ _ _
  refine ⟨hwrite, hfinal, ?_⟩
  intro s hs
  rcases List.mem_append.mp hs with h | h
  · exact Or.inl (hwrite s h)
  · simp only [List.mem_singleton] at h
    subst h
    exact Or.inr hfinal

/-! ### JSON values and `RecipeLoader._deep_merge` (C4, C7, C9)

Recipe configurations are JSON trees: string/number leaves and objects.
Python `dict`s are embedded as association lists in insertion order with
unique keys; `d[k] = v` replaces the value in place when the key exists and
appends otherwise. -/

/-- A JSON value as held in a recipe configuration. -/
inductive JVal where
  | str : String → JVal
  | num : Int → JVal
  | obj : List (String × JVal) → JVal

/-- A JSON object body (a Python `dict`). -/
abbrev JDict := List (String × JVal)

/-- Python `k in d` / `d[k]`: the value at key `k`, if present. -/
def getVal (d : JDict) (k : String) : Option JVal :=
  (d.find? (fun p => p.1 = k)).map (fun p => p.2)

/-- Python `d[k] = v`: replace in place when the key exists, else append. -/
def dictSet (d : JDict) (k : String) (v : JVal) : JDict :=
  if d.any (fun p => p.1 = k) then
    d.map (fun p => if p.1 = k then (k, v) else p)
  else
    d ++ [(k, v)]

/-- Python `del d[k]` (and the absent entry case): drop the key. -/
def eraseKey (d : JDict) (k : String) : JDict :=
  d.filter (fun p => p.1 ≠ k)

mutual

/-- Size of a JSON value (used as recursion fuel below). -/
def JVal.size : JVal → Nat
  | .str _ => 1
  | .num _ => 1
  | .obj d => 1 + JVal.sizeEntries d

/-- Total size of an object body. -/
def JVal.sizeEntries : List (String × JVal) → Nat
  | [] => 0
  | (_, v) :: rest => 1 + JVal.size v + JVal.sizeEntries rest

end

/-- The body of the `_deep_merge` loop for one `(key, override_value)` item:
if the key is present in `merged` and both values are dicts, merge them with
`w` (the recursive merge); otherwise `merged[key] = override_value`. -/
def mergeHead (m : JDict) (a : String) (v : JVal) (w : JDict → JDict → JDict) :
    JDict :=
  match getVal m a, v with
  | some (JVal.obj mv), JVal.obj ov => dictSet m a (JVal.obj (w mv ov))
  | _, _ => dictSet m a v

/-- Fuelled recursion for `_deep_merge`; the fuel only bounds the recursion
depth (always sufficient when it exceeds `JVal.sizeEntries overrides`), so
that the function is structural and evaluates in the kernel. -/
def deepMergeFuel : Nat → JDict → JDict → JDict
  | 0, m, _ => m
  | _ + 1, m, [] => m
  | fuel + 1, m, (a, v) :: rest =>
    deepMergeFuel fuel (mergeHead m a v (fun x y => deepMergeFuel fuel x y)) rest

/-- `RecipeLoader._deep_merge(source, overrides)`:
`merged = copy.deepcopy(source)`, then for each `(key, override_value)` of
`overrides` in order: if the key is in `merged` and both values are dicts,
recurse; otherwise `merged[key] = override_value`.  (The deep copy is the
identity on pure values; the absence of argument mutation is proved
separately against the heap model below.) -/
def deep_merge (source overrides : JDict) : JDict :=
  deepMergeFuel (JVal.sizeEntries overrides + 1) source overrides

/-- Pairwise distinctness of a key list, as Python `dict` keys are. -/
def keysNodup : List String → Bool
  | [] => true
  | x :: xs => !(xs.contains x) && keysNodup xs

mutual

/-- Well-formedness of a JSON value as produced by Python's `json` module:
every object in the tree has pairwise-distinct keys. -/
def JVal.wf : JVal → Bool
  | .str _ => true
  | .num _ => true
  | .obj d => keysNodup (d.map Prod.fst) && JVal.wfEntries d

/-- Well-formedness of every value of an object body. -/
def JVal.wfEntries : List (String × JVal) → Bool
  | [] => true
  | (_, v) :: rest => v.wf && JVal.wfEntries rest

end

/-- Well-formedness of an object body. -/
def JDict.wf (d : JDict) : Bool := keysNodup (d.map Prod.fst) && JVal.wfEntries d

theorem getVal_cons (k' : String) (v' : JVal) (d : JDict) (k : String) :
    getVal ((k', v') :: d) k = if k' = k then some v' else getVal d k := by
  by_cases h : k' = k <;> simp [getVal, List.find?_cons, h]

theorem getVal_append (d e : JDict) (k : String) :
    getVal (d ++ e) k = (getVal d k).or (getVal e k) := by
  induction d with
  | nil => simp [getVal]
  | cons hd tl ih =>
    obtain ⟨k', v'⟩ := hd
    rw [List.cons_append, getVal_cons, getVal_cons]
    by_cases h : k' = k <;> simp [h, ih]

theorem getVal_isSome_iff_any (d : JDict) (k : String) :
    (getVal d k).isSome = d.any (fun p => p.1 = k) := by
  induction d with
  | nil => simp [getVal]
  | cons hd tl ih =>
    obtain ⟨k', v'⟩ := hd
    rw [getVal_cons]
    by_cases h : k' = k <;> simp [h, ih]

theorem getVal_map_set_ne (d : JDict) (k k' : String) (v : JVal) (h : k' ≠ k) :
    getVal (d.map (fun p => if p.1 = k then (k, v) else p)) k' = getVal d k' := by
  induction d with
  | nil => rfl
  | cons hd tl ih =>
    obtain ⟨ka, va⟩ := hd
    by_cases hka : ka = k
    · subst hka
      have hhead : (if ((ka, va) : String × JVal).1 = ka then ((ka, v) : String × JVal)
          else (ka, va)) = (ka, v) := by simp
      rw [List.map_cons, hhead, getVal_cons, getVal_cons, if_neg (Ne.symm h),
        if_neg (Ne.symm h), ih]
    · simp only [List.map_cons, if_neg hka]
      rw [getVal_cons, getVal_cons]
      by_cases hk' : ka = k' <;> simp [hk', ih]

theorem getVal_map_set_self (d : JDict) (k : String) (v : JVal)
    (h : d.any (fun p => p.1 = k) = true) :
    getVal (d.map (fun p => if p.1 = k then (k, v) else p)) k = some v := by
  induction d with
  | nil => simp at h
  | cons hd tl ih =>
    obtain ⟨ka, va⟩ := hd
    by_cases hka : ka = k
    · simp only [List.map_cons, if_pos hka]
      rw [getVal_cons, if_pos rfl]
    · simp only [List.map_cons, if_neg hka]
      rw [getVal_cons, if_neg hka]
      exact ih (by simpa [List.any_cons, hka] using h)

theorem getVal_dictSet_self (d : JDict) (k : String) (v : JVal) :
    getVal (dictSet d k v) k = some v := by
  unfold dictSet
  by_cases hany : d.any (fun p => p.1 = k) = true
  · rw [if_pos hany]
    exact getVal_map_set_self d k v hany
  · rw [if_neg hany, getVal_append]
    have hnone : getVal d k = none := by
      cases hg : getVal d k with
      | none => rfl
      | some w =>
        have h2 := getVal_isSome_iff_any d k
        rw [hg] at h2
        exact absurd h2.symm hany
    rw [hnone, getVal_cons]
    simp

theorem getVal_dictSet_ne (d : JDict) (k k' : String) (v : JVal) (h : k' ≠ k) :
    getVal (dictSet d k v) k' = getVal d k' := by
  unfold dictSet
  by_cases hany : d.any (fun p => p.1 = k) = true
  · rw [if_pos hany]
    exact getVal_map_set_ne d k k' v h
  · rw [if_neg hany, getVal_append, getVal_cons, if_neg (Ne.symm h)]
    simp [getVal]

theorem map_set_eq_self (d : JDict) (k : String) (v : JVal)
    (h : ∀ p ∈ d, p.1 = k → p.2 = v) :
    d.map (fun p => if p.1 = k then (k, v) else p) = d := by
  induction d with
  | nil => rfl
  | cons hd tl ih =>
    obtain ⟨ka, va⟩ := hd
    by_cases hka : ka = k
    · subst hka
      have hva : va = v := h (ka, va) (List.mem_cons_self _ _) rfl
      subst hva
      have hhead : (if ((ka, va) : String × JVal).1 = ka then ((ka, va) : String × JVal)
          else (ka, va)) = (ka, va) := by simp
      rw [List.map_cons, hhead, ih (fun p hp => h p (List.mem_cons_of_mem _ hp))]
    · simp only [List.map_cons, if_neg hka, List.cons.injEq, true_and]
      exact ih (fun p hp => h p (List.mem_cons_of_mem _ hp))

theorem val_unique_of_nodup (d : JDict) (k : String) (v : JVal)
    (hnd : keysNodup (d.map Prod.fst) = true) (hget : getVal d k = some v) :
    ∀ p ∈ d, p.1 = k → p.2 = v := by
  induction d with
  | nil => intro p hp; cases hp
  | cons hd tl ih =>
    obtain ⟨ka, va⟩ := hd
    simp only [List.map_cons, keysNodup, Bool.and_eq_true, Bool.not_eq_true'] at hnd
    rw [getVal_cons] at hget
    intro p hp hpk
    rcases List.mem_cons.mp hp with rfl | hp'
    · simp only at hpk
      rw [if_pos hpk] at hget
      exact Option.some.inj hget
    · have hka : ka ≠ k := by
        intro hka
        have hmem : (List.map Prod.fst tl).contains ka = true := by
          apply List.elem_eq_true_of_mem
          rw [hka, ← hpk]
          exact List.mem_map_of_mem Prod.fst hp'
        rw [hnd.1] at hmem
        simp at hmem
      rw [if_neg hka] at hget
      exact ih hnd.2 hget p hp' hpk

theorem dictSet_eq_self (d : JDict) (k : String) (v : JVal)
    (hnd : keysNodup (d.map Prod.fst) = true) (hget : getVal d k = some v) :
    dictSet d k v = d := by
  unfold dictSet
  have hsome : (getVal d k).isSome = true := by rw [hget]; rfl
  rw [getVal_isSome_iff_any] at hsome
  rw [if_pos hsome]
  exact map_set_eq_self d k v (val_unique_of_nodup d k v hnd hget)

theorem getVal_of_mem_nodup (d : JDict) (k : String) (v : JVal)
    (hnd : keysNodup (d.map Prod.fst) = true) (hmem : (k, v) ∈ d) :
    getVal d k = some v := by
  induction d with
  | nil => cases hmem
  | cons hd tl ih =>
    obtain ⟨ka, va⟩ := hd
    simp only [List.map_cons, keysNodup, Bool.and_eq_true, Bool.not_eq_true'] at hnd
    rw [getVal_cons]
    rcases List.mem_cons.mp hmem with heq | hmem'
    · injection heq with h1 h2
      subst h1
      subst h2
      simp
    · have hka : ka ≠ k := by
        intro hka
        have hmem2 : (List.map Prod.fst tl).contains ka = true := by
          apply List.elem_eq_true_of_mem
          rw [hka]
          exact List.mem_map_of_mem Prod.fst hmem'
        rw [hnd.1] at hmem2
        simp at hmem2
      rw [if_neg hka]
      exact ih hnd.2 hmem'

theorem getVal_eq_none_of_not_contains (d : JDict) (k : String)
    (h : (d.map Prod.fst).contains k = false) : getVal d k = none := by
  induction d with
  | nil => rfl
  | cons hd tl ih =>
    obtain ⟨ka, va⟩ := hd
    simp only [List.map_cons, List.contains_cons, Bool.or_eq_false_iff] at h
    rw [getVal_cons, if_neg (Ne.symm (by simpa using h.1))]
    exact ih h.2

theorem keysNodup_iff (l : List String) : keysNodup l = true ↔ l.Nodup := by
  induction l with
  | nil => simp [keysNodup]
  | cons x xs ih => simp [keysNodup, ih, List.nodup_cons]

theorem keys_map_set (d : JDict) (k : String) (v : JVal) :
    (d.map (fun p => if p.1 = k then (k, v) else p)).map Prod.fst
      = d.map Prod.fst := by
  induction d with
  | nil => rfl
  | cons hd tl ih =>
    obtain ⟨ka, va⟩ := hd
    by_cases hka : ka = k
    · subst hka
      have hhead : (if ((ka, va) : String × JVal).1 = ka then ((ka, v) : String × JVal)
          else (ka, va)) = (ka, v) := by simp
      rw [List.map_cons, hhead, List.map_cons, List.map_cons, ih]
    · simp only [List.map_cons, if_neg hka, ih]

theorem any_key_of_mem (d : JDict) (k : String) (h : k ∈ d.map Prod.fst) :
    d.any (fun p => p.1 = k) = true := by
  rw [List.any_eq_true]
  obtain ⟨p, hp, hpk⟩ := List.mem_map.mp h
  exact ⟨p, hp, by simp [hpk]⟩

theorem keysNodup_dictSet (d : JDict) (k : String) (v : JVal)
    (h : keysNodup (d.map Prod.fst) = true) :
    keysNodup ((dictSet d k v).map Prod.fst) = true := by
  unfold dictSet
  by_cases hany : d.any (fun p => p.1 = k) = true
  · rw [if_pos hany, keys_map_set]
    exact h
  · rw [if_neg hany, List.map_append]
    rw [keysNodup_iff] at h ⊢
    refine List.Nodup.append h (List.nodup_singleton k) ?_
    intro a ha hak
    rw [List.map_singleton, List.mem_singleton] at hak
    subst hak
    exact absurd (any_key_of_mem d a ha) hany

theorem size_str (s : String) : JVal.size (JVal.str s) = 1 := rfl

theorem size_num (i : Int) : JVal.size (JVal.num i) = 1 := rfl

theorem size_obj (d : JDict) : JVal.size (JVal.obj d) = 1 + JVal.sizeEntries d := rfl

theorem sizeEntries_nil : JVal.sizeEntries ([] : JDict) = 0 := rfl

theorem sizeEntries_cons (a : String) (v : JVal) (rest : JDict) :
    JVal.sizeEntries ((a, v) :: rest) = 1 + JVal.size v + JVal.sizeEntries rest := rfl

theorem size_pos (v : JVal) : 1 ≤ JVal.size v := by
  cases v with
  | str s => rw [size_str]
  | num i => rw [size_num]
  | obj d => rw [size_obj]; omega

/-- One-step unfolding of the fuelled merge at a cons cell. -/
theorem deepMergeFuel_succ (fuel : Nat) (m : JDict) (a : String) (v : JVal)
    (rest : JDict) :
    deepMergeFuel (fuel + 1) m ((a, v) :: rest)
      = deepMergeFuel fuel
          (mergeHead m a v (fun x y => deepMergeFuel fuel x y)) rest := rfl

theorem mergeHead_congr (m : JDict) (a : String) (v : JVal)
    (w1 w2 : JDict → JDict → JDict)
    (h : ∀ mv ov, getVal m a = some (JVal.obj mv) → v = JVal.obj ov →
        w1 mv ov = w2 mv ov) :
    mergeHead m a v w1 = mergeHead m a v w2 := by
  unfold mergeHead
  cases hg : getVal m a with
  | none => cases v <;> rfl
  | some w =>
    cases w with
    | str s => cases v <;> rfl
    | num i => cases v <;> rfl
    | obj mv =>
      cases v with
      | str s => rfl
      | num i => rfl
      | obj ov => simp only [h mv ov hg rfl]

theorem mergeHead_obj_obj (m : JDict) (a : String) (mv ov : JDict)
    (w : JDict → JDict → JDict) (hg : getVal m a = some (JVal.obj mv)) :
    mergeHead m a (JVal.obj ov) w = dictSet m a (JVal.obj (w mv ov)) := by
  unfold mergeHead
  rw [hg]

theorem mergeHead_of_base_none (m : JDict) (a : String) (v : JVal)
    (w : JDict → JDict → JDict) (hg : getVal m a = none) :
    mergeHead m a v w = dictSet m a v := by
  unfold mergeHead
  rw [hg]

theorem mergeHead_of_base_str (m : JDict) (a : String) (v : JVal) (s : String)
    (w : JDict → JDict → JDict) (hg : getVal m a = some (JVal.str s)) :
    mergeHead m a v w = dictSet m a v := by
  unfold mergeHead
  rw [hg]

theorem mergeHead_of_base_num (m : JDict) (a : String) (v : JVal) (i : Int)
    (w : JDict → JDict → JDict) (hg : getVal m a = some (JVal.num i)) :
    mergeHead m a v w = dictSet m a v := by
  unfold mergeHead
  rw [hg]

theorem mergeHead_of_val_str (m : JDict) (a : String) (s : String)
    (w : JDict → JDict → JDict) :
    mergeHead m a (JVal.str s) w = dictSet m a (JVal.str s) := by
  unfold mergeHead
  cases hg : getVal m a with
  | none => rfl
  | some u => cases u <;> rfl

theorem mergeHead_of_val_num (m : JDict) (a : String) (i : Int)
    (w : JDict → JDict → JDict) :
    mergeHead m a (JVal.num i) w = dictSet m a (JVal.num i) := by
  unfold mergeHead
  cases hg : getVal m a with
  | none => rfl
  | some u => cases u <;> rfl

theorem deepMergeFuel_irrel (n : Nat) : ∀ (f1 f2 : Nat) (m o : JDict),
    JVal.sizeEntries o < f1 → JVal.sizeEntries o < f2 → JVal.sizeEntries o ≤ n →
    deepMergeFuel f1 m o = deepMergeFuel f2 m o := by
  induction n with
  | zero =>
    intro f1 f2 m o h1 h2 hn
    cases o with
    | nil =>
      obtain ⟨g1, rfl⟩ : ∃ g, f1 = g + 1 := ⟨f1 - 1, by omega⟩
      obtain ⟨g2, rfl⟩ : ∃ g, f2 = g + 1 := ⟨f2 - 1, by omega⟩
      rfl
    | cons hd rest =>
      obtain ⟨a, v⟩ := hd
      rw [sizeEntries_cons] at hn
      have := size_pos v
      omega
  | succ n ih =>
    intro f1 f2 m o h1 h2 hn
    obtain ⟨g1, rfl⟩ : ∃ g, f1 = g + 1 := ⟨f1 - 1, by omega⟩
    obtain ⟨g2, rfl⟩ : ∃ g, f2 = g + 1 := ⟨f2 - 1, by omega⟩
    cases o with
    | nil => rfl
    | cons hd rest =>
      obtain ⟨a, v⟩ := hd
      rw [sizeEntries_cons] at h1 h2 hn
      rw [deepMergeFuel_succ, deepMergeFuel_succ]
      have hvpos := size_pos v
      have hhead : mergeHead m a v (fun x y => deepMergeFuel g1 x y)
          = mergeHead m a v (fun x y => deepMergeFuel g2 x y) := by
        apply mergeHead_congr
        intro mv ov hg hv
        rw [hv, size_obj] at h1 h2 hn
        exact ih g1 g2 mv ov (by omega) (by omega) (by omega)
      rw [hhead]
      exact ih g1 g2 _ rest (by omega) (by omega) (by omega)

theorem deep_merge_nil (m : JDict) : deep_merge m [] = m := rfl

theorem deepMergeFuel_eq_deep_merge (f : Nat) (m o : JDict)
    (h : JVal.sizeEntries o < f) :
    deepMergeFuel f m o = deep_merge m o :=
  deepMergeFuel_irrel (JVal.sizeEntries o) f (JVal.sizeEntries o + 1) m o h
    (Nat.lt_succ_self _) (Nat.le_refl _)

theorem deep_merge_cons (m : JDict) (a : String) (v : JVal) (rest : JDict) :
    deep_merge m ((a, v) :: rest)
      = deep_merge (mergeHead m a v deep_merge) rest := by
  have hvpos := size_pos v
  have hsz : JVal.sizeEntries ((a, v) :: rest) + 1
      = (JVal.size v + JVal.sizeEntries rest + 1) + 1 := by
    rw [sizeEntries_cons]
    omega
  rw [deep_merge, hsz, deepMergeFuel_succ]
  have hhead : mergeHead m a v
        (fun x y => deepMergeFuel (JVal.size v + JVal.sizeEntries rest + 1) x y)
      = mergeHead m a v deep_merge := by
    apply mergeHead_congr
    intro mv ov hg hv
    rw [hv, size_obj] at hvpos ⊢
    exact deepMergeFuel_eq_deep_merge _ mv ov (by omega)
  rw [hhead]
  exact deepMergeFuel_eq_deep_merge _ _ rest (by omega)

theorem wfEntries_cons (a : String) (v : JVal) (rest : JDict) :
    JVal.wfEntries ((a, v) :: rest) = (v.wf && JVal.wfEntries rest) := rfl

theorem wf_obj (d : JDict) :
    (JVal.obj d).wf = (keysNodup (d.map Prod.fst) && JVal.wfEntries d) := rfl

/-- The `_deep_merge` loop body is always a single key update of `merged`. -/
theorem mergeHead_eq_dictSet (m : JDict) (a : String) (v : JVal)
    (w : JDict → JDict → JDict) :
    ∃ u, mergeHead m a v w = dictSet m a u := by
  unfold mergeHead
  cases hg : getVal m a with
  | none => cases v <;> exact ⟨_, rfl⟩
  | some u =>
    cases u with
    | str s => cases v <;> exact ⟨_, rfl⟩
    | num i => cases v <;> exact ⟨_, rfl⟩
    | obj mv =>
      cases v with
      | str s => exact ⟨_, rfl⟩
      | num i => exact ⟨_, rfl⟩
      | obj ov => exact ⟨_, rfl⟩

theorem deep_merge_self_aux (n : Nat) : ∀ (m rest : JDict),
    JVal.sizeEntries rest ≤ n →
    keysNodup (m.map Prod.fst) = true →
    (∀ p ∈ rest, getVal m p.1 = some p.2) →
    JVal.wfEntries rest = true →
    deep_merge m rest = m := by
  induction n with
  | zero =>
    intro m rest hle _ _ _
    cases rest with
    | nil => exact deep_merge_nil m
    | cons hd t =>
      obtain ⟨a, v⟩ := hd
      rw [sizeEntries_cons] at hle
      have := size_pos v
      omega
  | succ n ih =>
    intro m rest hle hnd hget hwf
    cases rest with
    | nil => exact deep_merge_nil m
    | cons hd t =>
      obtain ⟨a, v⟩ := hd
      rw [sizeEntries_cons] at hle
      rw [wfEntries_cons, Bool.and_eq_true] at hwf
      have hgv : getVal m a = some v := hget (a, v) (List.mem_cons_self _ _)
      rw [deep_merge_cons]
      have hstep : mergeHead m a v deep_merge = m := by
        cases v with
        | str s =>
          rw [mergeHead_of_val_str]
          exact dictSet_eq_self m a _ hnd hgv
        | num i =>
          rw [mergeHead_of_val_num]
          exact dictSet_eq_self m a _ hnd hgv
        | obj ov =>
          rw [mergeHead_obj_obj m a ov ov deep_merge hgv]
          have hwv := hwf.1
          rw [wf_obj, Bool.and_eq_true] at hwv
          have hovsz : JVal.sizeEntries ov ≤ n := by
            rw [size_obj] at hle
            omega
          have hidem : deep_merge ov ov = ov :=
            ih ov ov hovsz hwv.1
              (fun p hp => getVal_of_mem_nodup ov p.1 p.2 hwv.1 hp) hwv.2
          rw [hidem]
          exact dictSet_eq_self m a _ hnd hgv
      rw [hstep]
      exact ih m t (by omega) hnd
        (fun p hp => hget p (List.mem_cons_of_mem _ hp)) hwf.2

/-- The value of the merged configuration at one key, exactly as the
specification states it: a key whose values in base and overrides are both
mappings is merged recursively; any other key present in the overrides takes
the override value; a key absent from the overrides keeps the base value. -/
def mergedValue (b o : JDict) (k : String) : Option JVal :=
  match getVal b k, getVal o k with
  | some (JVal.obj bv), some (JVal.obj ov) => some (JVal.obj (deep_merge bv ov))
  | _, some ov => some ov
  | _, none => getVal b k

theorem mergedValue_ext (b1 b2 o1 o2 : JDict) (k : String)
    (hb : getVal b1 k = getVal b2 k) (ho : getVal o1 k = getVal o2 k) :
    mergedValue b1 o1 k = mergedValue b2 o2 k := by
  unfold mergedValue
  rw [hb, ho]

theorem getVal_deep_merge : ∀ (o b : JDict) (k : String),
    keysNodup (o.map Prod.fst) = true →
    getVal (deep_merge b o) k = mergedValue b o k := by
  intro o
  induction o with
  | nil =>
    intro b k _
    rw [deep_merge_nil]
    unfold mergedValue
    cases hb : getVal b k with
    | none => rfl
    | some w => cases w <;> rfl
  | cons hd rest ih =>
    intro b k h
    obtain ⟨a, v⟩ := hd
    simp only [List.map_cons, keysNodup, Bool.and_eq_true, Bool.not_eq_true'] at h
    rw [deep_merge_cons, ih (mergeHead b a v deep_merge) k h.2]
    by_cases hak : a = k
    · subst hak
      have hrest : getVal rest a = none := getVal_eq_none_of_not_contains rest a h.1
      have hcons : getVal ((a, v) :: rest) a = some v := by
        rw [getVal_cons, if_pos rfl]
      unfold mergedValue
      rw [hrest, hcons]
      cases hb : getVal b a with
      | none =>
        rw [mergeHead_of_base_none _ _ _ _ hb, getVal_dictSet_self]
        cases v <;> rfl
      | some w =>
        cases w with
        | str s =>
          rw [mergeHead_of_base_str _ _ _ _ _ hb, getVal_dictSet_self]
          cases v <;> rfl
        | num i =>
          rw [mergeHead_of_base_num _ _ _ _ _ hb, getVal_dictSet_self]
          cases v <;> rfl
        | obj mv =>
          cases v with
          | str s => rw [mergeHead_of_val_str, getVal_dictSet_self]
          | num i => rw [mergeHead_of_val_num, getVal_dictSet_self]
          | obj ov => rw [mergeHead_obj_obj _ _ _ _ _ hb, getVal_dictSet_self]
    · have hne : k ≠ a := Ne.symm hak
      obtain ⟨u, hu⟩ := mergeHead_eq_dictSet b a v deep_merge
      apply mergedValue_ext
      · rw [hu]
        exact getVal_dictSet_ne b a k u hne
      · rw [getVal_cons, if_neg hak]

/-- C4: the recursive merge is idempotent — for every well-formed mapping
`x`, `deep_merge x x = x` — and right-biased at leaves: at every key the
merged configuration holds the recursively merged object when base and
override values are both mappings, the override value when the key is in the
overrides otherwise, and the base value when the key is absent from the
overrides (`mergedValue`); moreover
`merge({"a":1,"b":{"c":2}}, {"b":{"d":3},"e":4})
  == {"a":1,"b":{"c":2,"d":3},"e":4}`. -/
theorem C4_deep_merge_idempotent_right_biased (x b o : JDict) (k : String)
    (hx : JDict.wf x = true) (ho : keysNodup (o.map Prod.fst) = true) :
    deep_merge x x = x ∧
    getVal (deep_merge b o) k = mergedValue b o k ∧
    deep_merge [("a", JVal.num 1), ("b", JVal.obj [("c", JVal.num 2)])]
        [("b", JVal.obj [("d", JVal.num 3)]), ("e", JVal.num 4)]
      = [("a", JVal.num 1),
         ("b", JVal.obj [("c", JVal.num 2), ("d", JVal.num 3)]),
         ("e", JVal.num 4)] := by
  refine ⟨?_, getVal_deep_merge o b k ho, by rfl⟩
  rw [JDict.wf, Bool.and_eq_true] at hx
  exact deep_merge_self_aux (JVal.sizeEntries x) x x (Nat.le_refl _) hx.1
    (fun p hp => getVal_of_mem_nodup x p.1 p.2 hx.1 hp) hx.2

theorem C4_deep_merge_witness :
    JDict.wf [("FREQ", JVal.str "Q")] = true ∧
    keysNodup (([("g", JVal.num 5)] : JDict).map Prod.fst) = true ∧
    (deep_merge [("FREQ", JVal.str "Q")] [("FREQ", JVal.str "Q")]
        = [("FREQ", JVal.str "Q")] ∧
     getVal (deep_merge [("x", JVal.num 1)] [("g", JVal.num 5)]) "g"
        = mergedValue [("x", JVal.num 1)] [("g", JVal.num 5)] "g" ∧
     deep_merge [("a", JVal.num 1), ("b", JVal.obj [("c", JVal.num 2)])]
        [("b", JVal.obj [("d", JVal.num 3)]), ("e", JVal.num 4)]
      = [("a", JVal.num 1),
         ("b", JVal.obj [("c", JVal.num 2), ("d", JVal.num 3)]),
         ("e", JVal.num 4)]) :=
  ⟨by rfl, by rfl,
    C4_deep_merge_idempotent_right_biased [("FREQ", JVal.str "Q")]
      [("x", JVal.num 1)] [("g", JVal.num 5)] "g" (by rfl) (by rfl)⟩

/-! ### RecipeLoader `load` / `remove` / persistence (C7, C8, C9) -/

/-- The recipe file on disk: absent, unparseable, or parsed JSON content. -/
inductive DiskState where
  | missing
  | corrupt
  | content (d : JDict)

/-- The body of `load`'s reconciliation when the stored file holds a value
`uv` for the requested group:
`self.recipe[recipe_name] = self._deep_merge(self.recipe.get(recipe_name, {}),
user_config[recipe_name])`.  When the stored value is not a mapping, or the
in-memory value is a non-mapping and the stored mapping is nonempty, the
merge raises and the exception is caught and logged, leaving the in-memory
tree unchanged. -/
def mergeStoredGroup (recipe : JDict) (name : String) (uv : JVal) : JDict :=
  match uv with
  | JVal.obj ov =>
    match getVal recipe name with
    | some (JVal.obj mv) => dictSet recipe name (JVal.obj (deep_merge mv ov))
    | none => dictSet recipe name (JVal.obj (deep_merge [] ov))
    | some w => if ov.isEmpty then dictSet recipe name w else recipe
  | _ => recipe

/-- `RecipeLoader.load(recipe_name)`: if the recipe file exists, parses, and
holds the group, merge the stored group into the in-memory tree; in every
case return `self.recipe.get(recipe_name, {})`.  The result is the updated
in-memory tree paired with the returned configuration. -/
def loadGroup (recipe : JDict) (disk : DiskState) (name : String) :
    JDict × JVal :=
  match disk with
  | DiskState.content user =>
    match getVal user name with
    | some uv =>
      let r := mergeStoredGroup recipe name uv
      (r, (getVal r name).getD (JVal.obj []))
    | none => (recipe, (getVal recipe name).getD (JVal.obj []))
  | _ => (recipe, (getVal recipe name).getD (JVal.obj []))

/-- Modelled from the spec: `remove(group)` does not exist in the source
under src (only the test suite calls it); the specification defines it as
"deletes the named group from the in-memory tree". -/
def removeGroup (recipe : JDict) (name : String) : JDict :=
  eraseKey recipe name

/-- Whether the on-disk recipe file holds an entry for the group. -/
def diskHasGroup (disk : DiskState) (name : String) : Bool :=
  match disk with
  | DiskState.content user => (getVal user name).isSome
  | _ => false

theorem loadGroup_content (recipe user : JDict) (name : String) :
    loadGroup recipe (DiskState.content user) name
      = (match getVal user name with
         | some uv =>
           (mergeStoredGroup recipe name uv,
            (getVal (mergeStoredGroup recipe name uv) name).getD (JVal.obj []))
         | none => (recipe, (getVal recipe name).getD (JVal.obj []))) := rfl

theorem loadGroup_content_none (recipe user : JDict) (name : String)
    (hg : getVal user name = none) :
    loadGroup recipe (DiskState.content user) name
      = (recipe, (getVal recipe name).getD (JVal.obj [])) := by
  rw [loadGroup_content, hg]

theorem loadGroup_missing (recipe : JDict) (name : String) :
    loadGroup recipe DiskState.missing name
      = (recipe, (getVal recipe name).getD (JVal.obj [])) := rfl

theorem loadGroup_corrupt (recipe : JDict) (name : String) :
    loadGroup recipe DiskState.corrupt name
      = (recipe, (getVal recipe name).getD (JVal.obj [])) := rfl

theorem getVal_eraseKey_self (d : JDict) (k : String) :
    getVal (eraseKey d k) k = none := by
  induction d with
  | nil => rfl
  | cons hd tl ih =>
    obtain ⟨a, v⟩ := hd
    unfold eraseKey at ih ⊢
    rw [List.filter_cons]
    by_cases ha : a = k
    · rw [if_neg (by simp [ha])]
      exact ih
    · rw [if_pos (by simp [ha]), getVal_cons, if_neg ha]
      exact ih

/-- C7 fails on the code: with group `"G"` present in the on-disk recipe
file, `remove("G")` (modelled from the spec as in-memory deletion) followed
by `load("G")` returns the stored configuration, resurrected from disk, not
the empty configuration. -/
theorem C7_remove_counterexample :
    (loadGroup (removeGroup [("G", JVal.obj [("X", JVal.str "1")])] "G")
        (DiskState.content [("G", JVal.obj [("X", JVal.str "1")])]) "G").2
      ≠ JVal.obj [] := by
  intro h
  rw [show (loadGroup (removeGroup [("G", JVal.obj [("X", JVal.str "1")])] "G")
        (DiskState.content [("G", JVal.obj [("X", JVal.str "1")])]) "G").2
      = JVal.obj [("X", JVal.str "1")] from rfl] at h
  injection h with hl
  exact List.noConfusion hl

/-- C7 amended: `remove(group)` followed by `load(group)` returns the empty
configuration provided the on-disk recipe file has no entry for that group
(missing file, unparseable file, or a parsed file without the group); when
the group is still on disk, `load` re-merges it from the file. -/
theorem C7_remove_then_load_empty (recipe : JDict) (disk : DiskState)
    (name : String) (h : diskHasGroup disk name = false) :
    (loadGroup (removeGroup recipe name) disk name).2 = JVal.obj [] := by
  have hrm : getVal (removeGroup recipe name) name = none :=
    getVal_eraseKey_self recipe name
  cases disk with
  | content user =>
    rw [show diskHasGroup (DiskState.content user) name
        = (getVal user name).isSome from rfl] at h
    cases hg : getVal user name with
    | some uv => rw [hg] at h; simp at h
    | none =>
      rw [loadGroup_content_none _ user name hg]
      rw [show (removeGroup recipe name,
            (getVal (removeGroup recipe name) name).getD (JVal.obj [])).2
          = (getVal (removeGroup recipe name) name).getD (JVal.obj []) from rfl,
        hrm]
      rfl
  | missing =>
    rw [loadGroup_missing]
    rw [show (removeGroup recipe name,
          (getVal (removeGroup recipe name) name).getD (JVal.obj [])).2
        = (getVal (removeGroup recipe name) name).getD (JVal.obj []) from rfl,
      hrm]
    rfl
  | corrupt =>
    rw [loadGroup_corrupt]
    rw [show (removeGroup recipe name,
          (getVal (removeGroup recipe name) name).getD (JVal.obj [])).2
        = (getVal (removeGroup recipe name) name).getD (JVal.obj []) from rfl,
      hrm]
    rfl

theorem C7_remove_then_load_empty_witness :
    diskHasGroup (DiskState.content [("OTHER", JVal.obj [])]) "G" = false ∧
    (loadGroup (removeGroup [("G", JVal.obj [("X", JVal.str "1")])] "G")
        (DiskState.content [("OTHER", JVal.obj [])]) "G").2 = JVal.obj [] :=
  ⟨by rfl,
    C7_remove_then_load_empty [("G", JVal.obj [("X", JVal.str "1")])]
      (DiskState.content [("OTHER", JVal.obj [])]) "G" (by rfl)⟩

/-! ### `save` / `_atomic_write` failure propagation (C8) -/

/-- `_atomic_write` with failure injection: `failAt = some n` means the
write raises after `n` characters reached the temporary file; the exception
is logged and re-raised (`raise`), carrying the filesystem state at the
failure.  `failAt = none` is the successful run ending in `os.replace`. -/
def atomicWriteR (fs : FS) (failAt : Option Nat) (outputFile content : String) :
    Except (String × FS) FS :=
  match failAt with
  | some n =>
    Except.error ("write failed",
      setFile fs (tmpPath outputFile) (String.mk (content.data.take n)))
  | none => Except.ok (renameState fs outputFile content)

/-- `RecipeLoader.save()`: calls `_atomic_write` inside
`try: ... except Exception as e: logger.error(...)` — the exception is
logged and swallowed, and `save` returns normally. -/
def saveR (fs : FS) (failAt : Option Nat) (outputFile content : String) :
    Except (String × FS) FS :=
  match atomicWriteR fs failAt outputFile content with
  | Except.error e => Except.ok e.2
  | Except.ok fs' => Except.ok fs'

/-- C8 fails on the code: a disk write failure during persistence makes
`_atomic_write` raise, but `save()` catches the exception and only logs it,
so the caller of `save()` observes a normal return, not an error. -/
theorem C8_save_counterexample :
    atomicWriteR (fun _ => none) (some 0) "recipe.json" "cfg"
      = Except.error ("write failed",
          setFile (fun _ => none) (tmpPath "recipe.json") "") ∧
    saveR (fun _ => none) (some 0) "recipe.json" "cfg"
      = Except.ok (setFile (fun _ => none) (tmpPath "recipe.json") "") :=
  ⟨rfl, rfl⟩

/-- C8 amended: a disk write failure is raised out of `_atomic_write`
(after logging), but `save()` catches and logs it and returns normally in
every case — the failure is not surfaced to `save()`'s caller. -/
theorem C8_save_swallows_write_failure (fs : FS) (n : Nat)
    (outputFile content : String) :
    atomicWriteR fs (some n) outputFile content
      = Except.error ("write failed",
          setFile fs (tmpPath outputFile) (String.mk (content.data.take n))) ∧
    saveR fs (some n) outputFile content
      = Except.ok (setFile fs (tmpPath outputFile) (String.mk (content.data.take n))) ∧
    saveR fs none outputFile content
      = Except.ok (renameState fs outputFile content) :=
  ⟨rfl, rfl, rfl⟩

/-! ### `update_recipe_from_url` persistence frame effect (C9) -/

/-- The final persistence step of `update_recipe_from_url`: read the current
on-disk JSON (or `{}` when the file is absent), set
`current_overrides[recipe_name] = recipe_config`, and atomically write the
result. -/
def updatePersistedRecipe (disk : Option JDict) (name : String) (cfg : JDict) :
    JDict :=
  dictSet (disk.getD []) name (JVal.obj cfg)

/-- C9: the persistence step of `update_recipe_from_url` rewrites only the
named group: every other top-level group keeps exactly the value it had on
disk immediately before the write, and the named group maps to the updated
configuration. -/
theorem C9_update_persists_only_named_group (disk : Option JDict)
    (name : String) (cfg : JDict) (g : String) (hg : g ≠ name) :
    getVal (updatePersistedRecipe disk name cfg) g = getVal (disk.getD []) g ∧
    getVal (updatePersistedRecipe disk name cfg) name = some (JVal.obj cfg) :=
  ⟨getVal_dictSet_ne _ _ _ _ hg, getVal_dictSet_self _ _ _⟩

theorem C9_update_persists_only_named_group_witness :
    ("DEFAULT" : String) ≠ "NEW" ∧
    (getVal (updatePersistedRecipe (some [("DEFAULT", JVal.obj [])]) "NEW"
          [("FREQ", JVal.str "Q")]) "DEFAULT"
        = getVal ((some [("DEFAULT", JVal.obj [])] : Option JDict).getD [])
            "DEFAULT" ∧
     getVal (updatePersistedRecipe (some [("DEFAULT", JVal.obj [])]) "NEW"
          [("FREQ", JVal.str "Q")]) "NEW"
        = some (JVal.obj [("FREQ", JVal.str "Q")])) :=
  ⟨by decide,
    C9_update_persists_only_named_group (some [("DEFAULT", JVal.obj [])]) "NEW"
      [("FREQ", JVal.str "Q")] "DEFAULT" (by decide)⟩

/-! ### `fetch_data` chunk loop (C5)

A parsed response is a table: column names and rows of optional cells
(`none` is a missing value).  The outcome of requesting and parsing one time
chunk is abstracted as an oracle `fetchRes : chunk → Option Table`; `none`
is any failure inside the per-chunk `try` (request, status, or parse). -/

/-- A tabular chunk result: column names and rows of optional cells. -/
structure Table where
  cols : List String
  rows : List (List (Option String))
deriving DecidableEq

/-- The canonical extract columns `["REF_AREA", "TIME_PERIOD", "OBS_VALUE"]`. -/
def canonicalCols : List String := ["REF_AREA", "TIME_PERIOD", "OBS_VALUE"]

/-- Cell of a row under column `c`, given the table's column list. -/
def getCell (cols : List String) (row : List (Option String)) (c : String) :
    Option String :=
  match cols.indexOf? c with
  | some i => (row.get? i).join
  | none => none

/-- The per-chunk column check of `fetch_data`: when the expected columns
are all present the chunk is projected to exactly
`["REF_AREA", "TIME_PERIOD", "OBS_VALUE"]`; otherwise a warning is logged
and the chunk is kept as-is. -/
def projectChunk (t : Table) : Table :=
  if canonicalCols.all (fun c => t.cols.contains c) then
    ⟨canonicalCols, t.rows.map (fun r => canonicalCols.map (getCell t.cols r))⟩
  else t

/-- `pd.concat(all_chunks, ignore_index=True)`: columns are the union in
order of first appearance; every row is re-indexed to that column list with
missing values for columns its chunk lacks. -/
def concatTables (ts : List Table) : Table :=
  let allCols := ts.foldl (fun acc t => acc ++ t.cols.filter (fun c => !acc.contains c)) []
  ⟨allCols, (ts.map (fun t => t.rows.map (fun r => allCols.map (getCell t.cols r)))).flatten⟩

/-- The chunk loop of `fetch_data` for one indicator: each chunk is
requested and parsed; on success the (possibly projected) chunk table is
appended to `all_chunks`; on any failure the error is logged and the loop
continues with the next chunk. -/
def fetchLoop (fetchRes : String × String → Option Table) :
    List (String × String) → List Table
  | [] => []
  | c :: rest =>
    match fetchRes c with
    | some df => projectChunk df :: fetchLoop fetchRes rest
    | none => fetchLoop fetchRes rest

/-- End of the per-indicator body of `fetch_data`: concatenate the fetched
chunk tables; when none succeeded, the persisted extract is an empty table
with exactly the canonical columns. -/
def fetch_data_indicator (fetchRes : String × String → Option Table)
    (chunks : List (String × String)) : Table :=
  let all := fetchLoop fetchRes chunks
  if all.isEmpty then ⟨canonicalCols, []⟩ else concatTables all

/-- C5: a chunk failure never aborts the loop — the accumulated tables are
exactly the successfully fetched chunks, projected, in fetch order; the
persisted extract is their concatenation, and when no chunk succeeded it is
an empty extract with exactly the canonical columns. -/
theorem C5_fetch_chunk_failures_tolerated
    (fetchRes : String × String → Option Table)
    (chunks : List (String × String)) :
    fetchLoop fetchRes chunks = (chunks.filterMap fetchRes).map projectChunk ∧
    (chunks.filterMap fetchRes = [] →
      fetch_data_indicator fetchRes chunks = ⟨canonicalCols, []⟩) ∧
    (chunks.filterMap fetchRes ≠ [] →
      fetch_data_indicator fetchRes chunks
        = concatTables ((chunks.filterMap fetchRes).map projectChunk)) := by
  have hloop : fetchLoop fetchRes chunks
      = (chunks.filterMap fetchRes).map projectChunk := by
    induction chunks with
    | nil => rfl
    | cons c rest ih =>
      cases hc : fetchRes c with
      | some df =>
        rw [show fetchLoop fetchRes (c :: rest)
            = (match fetchRes c with
               | some df => projectChunk df :: fetchLoop fetchRes rest
               | none => fetchLoop fetchRes rest) from rfl, hc,
          List.filterMap_cons, hc, List.map_cons, ih]
      | none =>
        rw [show fetchLoop fetchRes (c :: rest)
            = (match fetchRes c with
               | some df => projectChunk df :: fetchLoop fetchRes rest
               | none => fetchLoop fetchRes rest) from rfl, hc,
          List.filterMap_cons, hc, ih]
  refine ⟨hloop, ?_, ?_⟩
  · intro hnone
    unfold fetch_data_indicator
    rw [hloop, hnone]
    rfl
  · intro hsome
    unfold fetch_data_indicator
    rw [hloop]
    rw [if_neg (by
      intro hemp
      rw [List.isEmpty_iff] at hemp
      exact hsome (List.map_eq_nil_iff.mp hemp))]

/-- A sample chunk oracle: the first quarter succeeds with one observation,
every other chunk fails. -/
def fetchResExample : String × String → Option Table :=
  fun c =>
    if c.1 = "2024-Q1" then
      some ⟨canonicalCols, [[some "USA", some "2024-Q1", some "100"]]⟩
    else none

theorem C5_fetch_chunk_failures_tolerated_witness :
    ([("2024-Q1", "2024-Q1"), ("2024-Q2", "2024-Q2")].filterMap fetchResExample
        ≠ []) ∧
    fetch_data_indicator fetchResExample
        [("2024-Q1", "2024-Q1"), ("2024-Q2", "2024-Q2")]
      = concatTables
          (([("2024-Q1", "2024-Q1"), ("2024-Q2", "2024-Q2")].filterMap
              fetchResExample).map projectChunk) :=
  ⟨by decide,
    (C5_fetch_chunk_failures_tolerated fetchResExample
        [("2024-Q1", "2024-Q1"), ("2024-Q2", "2024-Q2")]).2.2 (by decide)⟩

/-! ### `create_dataframe` outer merge (C2)

Each loaded per-indicator extract, after the renames
`TIME_PERIOD → date`, `REF_AREA → country`, `OBS_VALUE → indicator`, is a
list of `((date, country), value)` observations.  The iterated
`pd.merge(..., on=["date", "country"], how="outer")` accumulates one row per
key with one optional cell per indicator merged so far.  (The merge's row
order is irrelevant to the claim — `create_dataframe` re-sorts at the end —
so rows are modelled left-table-first, then unmatched right rows.) -/

section Lookup

variable {κ α β : Type} [DecidableEq κ]

/-- First value stored under key `k`. -/
def lookupKey (l : List (κ × α)) (k : κ) : Option α :=
  (l.find? (fun p => p.1 = k)).map (fun p => p.2)

theorem lookupKey_cons (ka : κ) (va : α) (tl : List (κ × α)) (k : κ) :
    lookupKey ((ka, va) :: tl) k = if ka = k then some va else lookupKey tl k := by
  by_cases h : ka = k <;> simp [lookupKey, List.find?_cons, h]

theorem lookupKey_append (l1 l2 : List (κ × α)) (k : κ) :
    lookupKey (l1 ++ l2) k = (lookupKey l1 k).or (lookupKey l2 k) := by
  induction l1 with
  | nil => simp [lookupKey]
  | cons hd tl ih =>
    obtain ⟨ka, va⟩ := hd
    rw [List.cons_append, lookupKey_cons, lookupKey_cons]
    by_cases h : ka = k <;> simp [h, ih]

theorem lookupKey_map_pair (l : List (κ × α)) (g : κ × α → β) (k : κ) :
    lookupKey (l.map (fun p => (p.1, g p))) k
      = (l.find? (fun p => p.1 = k)).map g := by
  induction l with
  | nil => rfl
  | cons hd tl ih =>
    obtain ⟨ka, va⟩ := hd
    by_cases h : ka = k
    · subst h
      simp [lookupKey, List.find?_cons]
    · simp [lookupKey_cons, List.find?_cons, h, ih]

theorem lookupKey_isSome_iff_mem (l : List (κ × α)) (k : κ) :
    (lookupKey l k).isSome ↔ k ∈ l.map Prod.fst := by
  induction l with
  | nil => simp [lookupKey]
  | cons hd tl ih =>
    obtain ⟨ka, va⟩ := hd
    by_cases h : ka = k
    · subst h
      simp [lookupKey_cons]
    · rw [lookupKey_cons, if_neg h, ih, List.map_cons]
      rw [show ((ka, va) : κ × α).1 = ka from rfl]
      constructor
      · exact fun hmem => List.mem_cons_of_mem _ hmem
      · intro hmem
        rcases List.mem_cons.mp hmem with heq | hmem'
        · exact absurd heq.symm h
        · exact hmem'

theorem lookupKey_map_set_ne (l : List (κ × α)) (b : κ) (e : α) (a : κ)
    (h : a ≠ b) :
    lookupKey (l.map (fun p => if p.1 = b then (b, e) else p)) a
      = lookupKey l a := by
  induction l with
  | nil => rfl
  | cons hd tl ih =>
    obtain ⟨ka, va⟩ := hd
    rw [List.map_cons]
    by_cases hka : ka = b
    · subst hka
      rw [show (if ((ka, va) : κ × α).1 = ka then ((ka, e) : κ × α)
          else (ka, va)) = (ka, e) from by simp]
      rw [lookupKey_cons, lookupKey_cons, if_neg (Ne.symm h), if_neg (Ne.symm h)]
      exact ih
    · rw [show (if ((ka, va) : κ × α).1 = b then ((b, e) : κ × α)
          else (ka, va)) = (ka, va) from by simp [hka]]
      rw [lookupKey_cons, lookupKey_cons]
      by_cases hk : ka = a <;> simp [hk, ih]

theorem lookupKey_of_mem_nodup (l : List (κ × α)) (p : κ × α)
    (hnd : (l.map Prod.fst).Nodup) (hp : p ∈ l) :
    lookupKey l p.1 = some p.2 := by
  induction l with
  | nil => cases hp
  | cons hd tl ih =>
    obtain ⟨ka, va⟩ := hd
    rw [List.map_cons, List.nodup_cons] at hnd
    rw [show ((ka, va) : κ × α).1 = ka from rfl] at hnd
    rcases List.mem_cons.mp hp with heq | hp'
    · subst heq
      rw [lookupKey_cons, if_pos rfl]
    · have hne : ka ≠ p.1 := by
        intro hka
        exact hnd.1 (hka ▸ List.mem_map_of_mem Prod.fst hp')
      rw [lookupKey_cons, if_neg hne]
      exact ih hnd.2 hp'

end Lookup

/-- The key of a merged row: `(date, country)`. -/
abbrev MKey := String × String

/-- One step of the iterated outer merge
`merged_df = pd.merge(merged_df, df, on=["date", "country"], how="outer")`
when `merged_df` holds `n` indicator columns: rows of `merged_df` gain the
new indicator's value at their key (missing → NaN), and keys only in `df`
become new rows with NaN for all `n` previous indicators. -/
def mergeStep (acc : List (MKey × List (Option String))) (n : Nat)
    (df : List (MKey × String)) : List (MKey × List (Option String)) :=
  acc.map (fun p => (p.1, p.2 ++ [lookupKey df p.1]))
    ++ (df.filter (fun q => (lookupKey acc q.1).isNone)).map
        (fun q => (q.1, List.replicate n none ++ [some q.2]))

/-- The fold of `create_dataframe` over the remaining loaded extracts. -/
def mergeAllGo (acc : List (MKey × List (Option String))) (n : Nat) :
    List (List (MKey × String)) → List (MKey × List (Option String))
  | [] => acc
  | df :: more => mergeAllGo (mergeStep acc n df) (n + 1) more

/-- The merge phase of `create_dataframe`: the first loaded extract seeds
`merged_df`, and every further extract is outer-merged on `(date, country)`. -/
def create_dataframe_merge (dfs : List (List (MKey × String))) :
    List (MKey × List (Option String)) :=
  match dfs with
  | [] => []
  | d :: rest => mergeAllGo (d.map (fun q => (q.1, [some q.2]))) 1 rest

/-- The per-indicator cells the merged row at key `k` should hold: for each
loaded extract in order, its value at `k` if any, else NaN. -/
def colLookups (dfs : List (List (MKey × String))) (k : MKey) :
    List (Option String) :=
  dfs.map (fun df => lookupKey df k)

theorem lookup_part1 (acc : List (MKey × List (Option String)))
    (df : List (MKey × String)) (k : MKey) :
    lookupKey (acc.map (fun p => (p.1, p.2 ++ [lookupKey df p.1]))) k
      = (lookupKey acc k).map (fun vs => vs ++ [lookupKey df k]) := by
  rw [lookupKey_map_pair]
  cases hf : acc.find? (fun p => p.1 = k) with
  | none =>
    have hnone : lookupKey acc k = none := by
      unfold lookupKey
      rw [hf]
      rfl
    rw [hnone]
    rfl
  | some p =>
    have hpk : p.1 = k := by simpa using List.find?_some hf
    have hsome : lookupKey acc k = some p.2 := by
      unfold lookupKey
      rw [hf]
      rfl
    rw [hsome]
    simp [hpk]

theorem lookup_part2 (acc : List (MKey × List (Option String))) (n : Nat)
    (df : List (MKey × String)) (k : MKey) (hacc : lookupKey acc k = none) :
    lookupKey ((df.filter (fun q => (lookupKey acc q.1).isNone)).map
        (fun q => (q.1, List.replicate n none ++ [some q.2]))) k
      = (lookupKey df k).map (fun v => List.replicate n none ++ [some v]) := by
  induction df with
  | nil => rfl
  | cons hd tl ih =>
    obtain ⟨kb, vb⟩ := hd
    rw [List.filter_cons]
    by_cases hk : kb = k
    · subst hk
      rw [if_pos (by simp only [hacc]; rfl), List.map_cons]
      rw [lookupKey_cons, if_pos rfl, lookupKey_cons, if_pos rfl]
      rfl
    · by_cases hpred : (lookupKey acc kb).isNone = true
      · rw [if_pos (by simpa using hpred), List.map_cons]
        rw [lookupKey_cons, if_neg hk, lookupKey_cons, if_neg hk]
        exact ih
      · rw [if_neg (by simpa using hpred), lookupKey_cons, if_neg hk]
        exact ih

theorem lookup_mergeStep (acc : List (MKey × List (Option String))) (n : Nat)
    (df : List (MKey × String)) (k : MKey) :
    lookupKey (mergeStep acc n df) k
      = match lookupKey acc k with
        | some vs => some (vs ++ [lookupKey df k])
        | none => (lookupKey df k).map
            (fun v => List.replicate n none ++ [some v]) := by
  unfold mergeStep
  rw [lookupKey_append, lookup_part1]
  cases hacc : lookupKey acc k with
  | some vs => rfl
  | none =>
    rw [lookup_part2 acc n df k hacc]
    rfl

theorem keys_mergeStep (acc : List (MKey × List (Option String))) (n : Nat)
    (df : List (MKey × String)) :
    (mergeStep acc n df).map Prod.fst
      = acc.map Prod.fst
        ++ (df.filter (fun q => (lookupKey acc q.1).isNone)).map Prod.fst := by
  unfold mergeStep
  rw [List.map_append, List.map_map, List.map_map]
  congr 1

theorem nodup_keys_mergeStep (acc : List (MKey × List (Option String)))
    (n : Nat) (df : List (MKey × String))
    (hacc : (acc.map Prod.fst).Nodup) (hdf : (df.map Prod.fst).Nodup) :
    ((mergeStep acc n df).map Prod.fst).Nodup := by
  rw [keys_mergeStep]
  refine List.Nodup.append hacc ?_ ?_
  · exact List.Nodup.sublist ((List.filter_sublist df).map Prod.fst) hdf
  · intro a ha hb
    obtain ⟨q, hq, rfl⟩ := List.mem_map.mp hb
    have hmem := (List.mem_filter.mp hq).2
    have hsome : (lookupKey acc q.1).isSome :=
      (lookupKey_isSome_iff_mem acc q.1).mpr ha
    rw [Option.isNone_iff_eq_none] at hmem
    rw [hmem] at hsome
    cases hsome

theorem nodup_keys_mergeAllGo :
    ∀ (more : List (List (MKey × String)))
      (acc : List (MKey × List (Option String))) (n : Nat),
    (acc.map Prod.fst).Nodup → (∀ df ∈ more, (df.map Prod.fst).Nodup) →
    ((mergeAllGo acc n more).map Prod.fst).Nodup := by
  intro more
  induction more with
  | nil => intro acc n hacc _; exact hacc
  | cons df rest ih =>
    intro acc n hacc hmore
    exact ih (mergeStep acc n df) (n + 1)
      (nodup_keys_mergeStep acc n df hacc (hmore df (List.mem_cons_self _ _)))
      (fun d hd => hmore d (List.mem_cons_of_mem _ hd))

theorem lookup_mergeAllGo :
    ∀ (more : List (List (MKey × String)))
      (acc : List (MKey × List (Option String))) (n : Nat) (k : MKey),
    lookupKey (mergeAllGo acc n more) k
      = match lookupKey acc k with
        | some vs => some (vs ++ colLookups more k)
        | none =>
          if (colLookups more k).all (fun o => o.isNone) then none
          else some (List.replicate n none ++ colLookups more k) := by
  intro more
  induction more with
  | nil =>
    intro acc n k
    cases hacc : lookupKey acc k with
    | some vs => simp [mergeAllGo, colLookups, hacc]
    | none => simp [mergeAllGo, colLookups, hacc]
  | cons df rest ih =>
    intro acc n k
    rw [show mergeAllGo acc n (df :: rest)
        = mergeAllGo (mergeStep acc n df) (n + 1) rest from rfl]
    rw [ih, lookup_mergeStep]
    rw [show colLookups (df :: rest) k
        = lookupKey df k :: colLookups rest k from rfl]
    cases hacc : lookupKey acc k with
    | some vs => simp
    | none =>
      cases hdf : lookupKey df k with
      | some v => simp
      | none =>
        by_cases hall : (colLookups rest k).all (fun o => o.isNone) = true
        · simp [hall]
        · simp only [Bool.not_eq_true] at hall
          simp [hall, List.replicate_succ']

theorem lookup_create_dataframe_merge (dfs : List (List (MKey × String)))
    (k : MKey) :
    lookupKey (create_dataframe_merge dfs) k
      = if (colLookups dfs k).all (fun o => o.isNone) then none
        else some (colLookups dfs k) := by
  cases dfs with
  | nil => simp [create_dataframe_merge, colLookups, lookupKey]
  | cons d rest =>
    rw [show create_dataframe_merge (d :: rest)
        = mergeAllGo (d.map (fun q => (q.1, [some q.2]))) 1 rest from rfl]
    rw [lookup_mergeAllGo, lookupKey_map_pair]
    rw [show colLookups (d :: rest) k = lookupKey d k :: colLookups rest k from rfl]
    cases hf : d.find? (fun p => p.1 = k) with
    | none =>
      have hd : lookupKey d k = none := by
        unfold lookupKey
        rw [hf]
        rfl
      rw [hd]
      by_cases hall : (colLookups rest k).all (fun o => o.isNone) = true
      · simp [hall]
      · simp only [Bool.not_eq_true] at hall
        simp [hall, List.replicate_succ]
    | some q =>
      have hd : lookupKey d k = some q.2 := by
        unfold lookupKey
        rw [hf]
        rfl
      rw [hd]
      simp

theorem exists_some_iff_not_all_none (dfs : List (List (MKey × String)))
    (k : MKey) :
    (∃ df ∈ dfs, (lookupKey df k).isSome)
      ↔ ¬ (colLookups dfs k).all (fun o => o.isNone) = true := by
  unfold colLookups
  rw [List.all_eq_true]
  constructor
  · intro ⟨df, hdf, hsome⟩ hall
    have := hall (lookupKey df k) (List.mem_map_of_mem _ hdf)
    rw [Option.isNone_iff_eq_none] at this
    rw [this] at hsome
    cases hsome
  · intro hnall
    by_contra hne
    push_neg at hne
    apply hnall
    intro o ho
    obtain ⟨df, hdf, rfl⟩ := List.mem_map.mp ho
    have hns := hne df hdf
    cases hlk : lookupKey df k with
    | none => rfl
    | some v => rw [hlk] at hns; simp at hns

/-- C2: the iterated outer merge of the loaded extracts (each with unique
`(date, country)` keys, one row per observation) holds exactly one row per
key present in at least one extract; that row's cell for each indicator is
the indicator's value at the key, and NaN (`none`) for every indicator whose
extract lacks the key; in particular merging one extract holding only
(2024-Q1, USA) with one holding only (2024-Q2, GBR) yields exactly the two
rows with NaN opposite each value. -/
theorem C2_create_dataframe_outer_join (dfs : List (List (MKey × String)))
    (h : ∀ df ∈ dfs, (df.map Prod.fst).Nodup) :
    ((create_dataframe_merge dfs).map Prod.fst).Nodup ∧
    (∀ k, lookupKey (create_dataframe_merge dfs) k
        = if (colLookups dfs k).all (fun o => o.isNone) then none
          else some (colLookups dfs k)) ∧
    (∀ k, (∃ df ∈ dfs, (lookupKey df k).isSome)
        ↔ k ∈ (create_dataframe_merge dfs).map Prod.fst) ∧
    (∀ p ∈ create_dataframe_merge dfs, p.2 = colLookups dfs p.1) ∧
    create_dataframe_merge
        [[(("2024-Q1", "USA"), "100")], [(("2024-Q2", "GBR"), "200")]]
      = [(("2024-Q1", "USA"), [some "100", none]),
         (("2024-Q2", "GBR"), [none, some "200"])] := by
  have hnodup : ((create_dataframe_merge dfs).map Prod.fst).Nodup := by
    cases dfs with
    | nil => exact List.nodup_nil
    | cons d rest =>
      rw [show create_dataframe_merge (d :: rest)
          = mergeAllGo (d.map (fun q => (q.1, [some q.2]))) 1 rest from rfl]
      refine nodup_keys_mergeAllGo rest _ 1 ?_
        (fun df hdf => h df (List.mem_cons_of_mem _ hdf))
      rw [List.map_map]
      exact h d (List.mem_cons_self _ _)
  refine ⟨hnodup, lookup_create_dataframe_merge dfs, ?_, ?_, by decide⟩
  · intro k
    rw [exists_some_iff_not_all_none,
      ← lookupKey_isSome_iff_mem (create_dataframe_merge dfs) k,
      lookup_create_dataframe_merge dfs k]
    by_cases hall : (colLookups dfs k).all (fun o => o.isNone) = true
    · simp [hall]
    · simp [hall]
  · intro p hp
    have hlk := lookupKey_of_mem_nodup (create_dataframe_merge dfs) p hnodup hp
    rw [lookup_create_dataframe_merge dfs p.1] at hlk
    by_cases hall : (colLookups dfs p.1).all (fun o => o.isNone) = true
    · rw [if_pos hall] at hlk
      cases hlk
    · rw [if_neg hall] at hlk
      exact (Option.some.inj hlk).symm

theorem C2_create_dataframe_outer_join_witness :
    (∀ df ∈ [[(("2024-Q1", "USA"), "100")], [(("2024-Q2", "GBR"), "200")]],
        (df.map (Prod.fst : MKey × String → MKey)).Nodup) ∧
    create_dataframe_merge
        [[(("2024-Q1", "USA"), "100")], [(("2024-Q2", "GBR"), "200")]]
      = [(("2024-Q1", "USA"), [some "100", none]),
         (("2024-Q2", "GBR"), [none, some "200"])] :=
  ⟨by decide,
    (C2_create_dataframe_outer_join
        [[(("2024-Q1", "USA"), "100")], [(("2024-Q2", "GBR"), "200")]]
        (by decide)).2.2.2.2⟩

/-! ### `_convert_date` (C6)

`pd.Period(date_str, freq).start_time` is embedded as a parser of the
frequency's label grammar (the same grammar `_build_time_chunks` emits:
`"YYYY-Qn"`, `"YYYY-MM"`, `"YYYY"`) returning the absolute period index,
composed with the period's start instant; a label that fails to parse is
returned unchanged, mirroring the `except` branch. -/

/-- Numeric value of a decimal digit character. -/
def charVal (c : Char) : Nat := c.toNat - 48

/-- Decimal value of a digit string. -/
def digitsToNat (l : List Char) : Nat :=
  l.foldl (fun a c => a * 10 + charVal c) 0

/-- `a` followed by the decimal digits of `n`, as a number. -/
def appDigits (a n : Nat) : Nat := a * 10 ^ (Nat.log 10 n + 1) + n

theorem charVal_digitChar : ∀ d, d < 10 → charVal (Nat.digitChar d) = d := by
  decide

theorem isDigit_digitChar : ∀ d, d < 10 → (Nat.digitChar d).isDigit = true := by
  decide

theorem foldl_toDigitsCore (n : Nat) : ∀ (fuel a : Nat) (ds : List Char),
    n < fuel →
    List.foldl (fun a c => a * 10 + charVal c) a (Nat.toDigitsCore 10 fuel n ds)
      = List.foldl (fun a c => a * 10 + charVal c) (appDigits a n) ds := by
  induction n using Nat.strong_induction_on with
  | _ n ih =>
    intro fuel a ds hlt
    obtain ⟨f, rfl⟩ : ∃ f, fuel = f + 1 := ⟨fuel - 1, by omega⟩
    simp only [Nat.toDigitsCore]
    by_cases hdiv : n / 10 = 0
    · rw [if_pos hdiv, List.foldl_cons, charVal_digitChar (n % 10) (by omega)]
      have hn10 : n < 10 := by omega
      have hmod : n % 10 = n := Nat.mod_eq_of_lt hn10
      rw [hmod]
      unfold appDigits
      rw [Nat.log_eq_zero_iff.mpr (Or.inl hn10)]
      norm_num
    · rw [if_neg hdiv]
      have hlt' : n / 10 < n := Nat.div_lt_self (by omega) (by omega)
      rw [ih (n / 10) hlt' f a (Nat.digitChar (n % 10) :: ds) (by omega),
        List.foldl_cons, charVal_digitChar (n % 10) (by omega)]
      congr 1
      unfold appDigits
      rw [Nat.log_div_base]
      have hge : 10 ≤ n := by omega
      have hlog : 1 ≤ Nat.log 10 n := Nat.log_pos (by omega) hge
      have hsub : Nat.log 10 n - 1 + 1 = Nat.log 10 n := by omega
      rw [hsub]
      have hpow : a * 10 ^ Nat.log 10 n * 10 = a * 10 ^ (Nat.log 10 n + 1) := by
        rw [pow_succ]
        ring
      have hmod := Nat.div_add_mod n 10
      calc (a * 10 ^ Nat.log 10 n + n / 10) * 10 + n % 10
          = a * 10 ^ Nat.log 10 n * 10 + (10 * (n / 10) + n % 10) := by ring
        _ = a * 10 ^ (Nat.log 10 n + 1) + n := by rw [hpow, hmod]

theorem digitsToNat_repr (n : Nat) : digitsToNat (Nat.repr n).data = n := by
  unfold digitsToNat
  rw [show (Nat.repr n).data = Nat.toDigitsCore 10 (n + 1) n [] from rfl,
    foldl_toDigitsCore n (n + 1) 0 [] (Nat.lt_succ_self n)]
  unfold appDigits
  simp

theorem toDigitsCore_digits (n : Nat) : ∀ (fuel : Nat) (ds : List Char),
    n < fuel → ∀ c ∈ Nat.toDigitsCore 10 fuel n ds, c ∈ ds ∨ c.isDigit = true := by
  induction n using Nat.strong_induction_on with
  | _ n ih =>
    intro fuel ds hlt c hc
    obtain ⟨f, rfl⟩ : ∃ f, fuel = f + 1 := ⟨fuel - 1, by omega⟩
    simp only [Nat.toDigitsCore] at hc
    by_cases hdiv : n / 10 = 0
    · rw [if_pos hdiv] at hc
      rcases List.mem_cons.mp hc with rfl | hc'
      · exact Or.inr (isDigit_digitChar (n % 10) (by omega))
      · exact Or.inl hc'
    · rw [if_neg hdiv] at hc
      have hlt' : n / 10 < n := Nat.div_lt_self (by omega) (by omega)
      rcases ih (n / 10) hlt' f (Nat.digitChar (n % 10) :: ds) (by omega) c hc with
        hmem | hdig
      · rcases List.mem_cons.mp hmem with rfl | hc'
        · exact Or.inr (isDigit_digitChar (n % 10) (by omega))
        · exact Or.inl hc'
      · exact Or.inr hdig

theorem repr_data_all_digits (n : Nat) :
    ∀ c ∈ (Nat.repr n).data, c.isDigit = true := by
  intro c hc
  rw [show (Nat.repr n).data = Nat.toDigitsCore 10 (n + 1) n [] from rfl] at hc
  rcases toDigitsCore_digits n (n + 1) [] (Nat.lt_succ_self n) c hc with hmem | hdig
  · cases hmem
  · exact hdig

theorem toDigitsCore_ne_nil : ∀ (fuel n : Nat) (ds : List Char), ds ≠ [] →
    Nat.toDigitsCore 10 fuel n ds ≠ [] := by
  intro fuel
  induction fuel with
  | zero => intro n ds h; exact h
  | succ f ih =>
    intro n ds h
    simp only [Nat.toDigitsCore]
    by_cases hdiv : n / 10 = 0
    · rw [if_pos hdiv]
      exact List.cons_ne_nil _ _
    · rw [if_neg hdiv]
      exact ih (n / 10) _ (List.cons_ne_nil _ _)

theorem repr_data_ne_nil (n : Nat) : (Nat.repr n).data ≠ [] := by
  rw [show (Nat.repr n).data = Nat.toDigitsCore 10 (n + 1) n [] from rfl]
  simp only [Nat.toDigitsCore]
  by_cases hdiv : n / 10 = 0
  · rw [if_pos hdiv]
    exact List.cons_ne_nil _ _
  · rw [if_neg hdiv]
    exact toDigitsCore_ne_nil n (n / 10) _ (List.cons_ne_nil _ _)

theorem span_all_append (P : Char → Bool) (l r : List Char)
    (hl : ∀ c ∈ l, P c = true)
    (hr : ∀ c cs, r = c :: cs → P c = false) :
    (l ++ r).span P = (l, r) := by
  rw [List.span_eq_take_drop]
  have ht : (l ++ r).takeWhile P = l := by
    induction l with
    | nil =>
      cases hrr : r with
      | nil => rfl
      | cons c cs =>
        rw [List.nil_append, List.takeWhile_cons, hr c cs hrr]
        rfl
    | cons x xs ih =>
      rw [List.cons_append, List.takeWhile_cons, hl x (List.mem_cons_self _ _),
        if_pos rfl, ih (fun c hc => hl c (List.mem_cons_of_mem _ hc))]
  have hd : (l ++ r).dropWhile P = r := by
    clear ht
    induction l with
    | nil =>
      cases hrr : r with
      | nil => rfl
      | cons c cs =>
        rw [List.nil_append, List.dropWhile_cons, hr c cs hrr]
        rfl
    | cons x xs ih =>
      rw [List.cons_append, List.dropWhile_cons, hl x (List.mem_cons_self _ _),
        if_pos rfl]
      exact ih (fun c hc => hl c (List.mem_cons_of_mem _ hc))
  rw [ht, hd]

/-- Parser for the quarterly grammar `"YYYY-Qn"` (with `n` in 1..4),
returning the absolute quarter index `year * 4 + (quarter - 1)`. -/
def parseQuarterLabel (s : String) : Option Nat :=
  match s.data.span (fun c => c.isDigit) with
  | (ys, '-' :: 'Q' :: qs) =>
    if ys ≠ [] ∧ qs ≠ [] ∧ qs.all (fun c => c.isDigit) then
      let y := digitsToNat ys
      let q := digitsToNat qs
      if 1 ≤ q ∧ q ≤ 4 then some (y * 4 + (q - 1)) else none
    else none
  | _ => none

/-- Parser for the monthly grammar `"YYYY-MM"` (month 1..12), returning the
absolute month index `year * 12 + (month - 1)`. -/
def parseMonthLabel (s : String) : Option Nat :=
  match s.data.span (fun c => c.isDigit) with
  | (ys, '-' :: ms) =>
    if ys ≠ [] ∧ ms ≠ [] ∧ ms.all (fun c => c.isDigit) then
      let y := digitsToNat ys
      let m := digitsToNat ms
      if 1 ≤ m ∧ m ≤ 12 then some (y * 12 + (m - 1)) else none
    else none
  | _ => none

/-- Parser for the yearly grammar `"YYYY"`. -/
def parseYearLabel (s : String) : Option Nat :=
  match s.data.span (fun c => c.isDigit) with
  | (ys, []) => if ys ≠ [] then some (digitsToNat ys) else none
  | _ => none

/-- The label parser of `pd.Period(date_str, freq)` restricted to the
frequency's label grammar. -/
def parseLabel : Freq → String → Option Nat
  | .Q => parseQuarterLabel
  | .M => parseMonthLabel
  | .Y => parseYearLabel

/-- A calendar instant (midnight of a day). -/
structure Timestamp where
  year : Nat
  month : Nat
  day : Nat
deriving DecidableEq

/-- `pd.Period(...).start_time`: the first instant of the period. -/
def periodStartTime (freq : Freq) (p : Nat) : Timestamp :=
  match freq with
  | .Q => ⟨p / 4, 3 * (p % 4) + 1, 1⟩
  | .M => ⟨p / 12, p % 12 + 1, 1⟩
  | .Y => ⟨p, 1, 1⟩

/-- The result of `_convert_date`: a chronological value, or the original
string when parsing failed. -/
inductive DateVal where
  | ts : Timestamp → DateVal
  | orig : String → DateVal
deriving DecidableEq

/-- `OECDAPI_Databuilder._convert_date`: parse the label per the frequency
and return the period's start instant; on failure, log and return the
original string unchanged. -/
def convert_date (freq : Freq) (s : String) : DateVal :=
  match parseLabel freq s with
  | some p => DateVal.ts (periodStartTime freq p)
  | none => DateVal.orig s

theorem data_formatQ (p : Nat) :
    (formatLabel Freq.Q p).data
      = (Nat.repr (p / 4)).data ++ ('-' :: 'Q' :: (Nat.repr (p % 4 + 1)).data) := by
  show (Nat.repr (p / 4) ++ "-Q" ++ Nat.repr (p % 4 + 1)).data = _
  rw [String.data_append, String.data_append, List.append_assoc]
  rfl

theorem parseQuarter_format (p : Nat) :
    parseQuarterLabel (formatLabel Freq.Q p) = some p := by
  unfold parseQuarterLabel
  rw [data_formatQ p,
    span_all_append _ _ _ (repr_data_all_digits _)
      (fun c cs h => by
        injection h with h1 _
        rw [← h1]
        rfl)]
  show (if (Nat.repr (p / 4)).data ≠ [] ∧ (Nat.repr (p % 4 + 1)).data ≠ [] ∧
          (Nat.repr (p % 4 + 1)).data.all (fun c => c.isDigit) then
        if 1 ≤ digitsToNat (Nat.repr (p % 4 + 1)).data ∧
            digitsToNat (Nat.repr (p % 4 + 1)).data ≤ 4 then
          some (digitsToNat (Nat.repr (p / 4)).data * 4
            + (digitsToNat (Nat.repr (p % 4 + 1)).data - 1))
        else none
       else none) = some p
  rw [if_pos ⟨repr_data_ne_nil _, repr_data_ne_nil _,
    List.all_eq_true.mpr (repr_data_all_digits _)⟩]
  simp only [digitsToNat_repr]
  rw [if_pos ⟨by omega, by omega⟩]
  congr 1
  omega

theorem pad2_data_all_digits (m : Nat) : ∀ c ∈ (pad2 m).data, c.isDigit = true := by
  unfold pad2
  by_cases h : m < 10
  · rw [if_pos h, String.data_append]
    intro c hc
    rcases List.mem_cons.mp hc with rfl | hc'
    · rfl
    · exact repr_data_all_digits m c hc'
  · rw [if_neg h]
    exact repr_data_all_digits m

theorem pad2_data_ne_nil (m : Nat) : (pad2 m).data ≠ [] := by
  unfold pad2
  by_cases h : m < 10
  · rw [if_pos h, String.data_append]
    exact List.cons_ne_nil _ _
  · rw [if_neg h]
    exact repr_data_ne_nil m

theorem digitsToNat_pad2 (m : Nat) : digitsToNat (pad2 m).data = m := by
  unfold pad2
  by_cases h : m < 10
  · rw [if_pos h, String.data_append]
    show digitsToNat ('0' :: (Nat.repr m).data) = m
    unfold digitsToNat
    rw [List.foldl_cons]
    show List.foldl _ (0 * 10 + charVal '0') _ = m
    rw [show (0 * 10 + charVal '0') = 0 from rfl]
    exact digitsToNat_repr m
  · rw [if_neg h]
    exact digitsToNat_repr m

theorem data_formatM (p : Nat) :
    (formatLabel Freq.M p).data
      = (Nat.repr (p / 12)).data ++ ('-' :: (pad2 (p % 12 + 1)).data) := by
  show (Nat.repr (p / 12) ++ "-" ++ pad2 (p % 12 + 1)).data = _
  rw [String.data_append, String.data_append, List.append_assoc]
  rfl

theorem parseMonth_format (p : Nat) :
    parseMonthLabel (formatLabel Freq.M p) = some p := by
  unfold parseMonthLabel
  rw [data_formatM p,
    span_all_append _ _ _ (repr_data_all_digits _)
      (fun c cs h => by
        injection h with h1 _
        rw [← h1]
        rfl)]
  show (if (Nat.repr (p / 12)).data ≠ [] ∧ (pad2 (p % 12 + 1)).data ≠ [] ∧
          (pad2 (p % 12 + 1)).data.all (fun c => c.isDigit) then
        if 1 ≤ digitsToNat (pad2 (p % 12 + 1)).data ∧
            digitsToNat (pad2 (p % 12 + 1)).data ≤ 12 then
          some (digitsToNat (Nat.repr (p / 12)).data * 12
            + (digitsToNat (pad2 (p % 12 + 1)).data - 1))
        else none
       else none) = some p
  rw [if_pos ⟨repr_data_ne_nil _, pad2_data_ne_nil _,
    List.all_eq_true.mpr (pad2_data_all_digits _)⟩]
  simp only [digitsToNat_repr, digitsToNat_pad2]
  rw [if_pos ⟨by omega, by omega⟩]
  congr 1
  omega

theorem parseYear_format (p : Nat) :
    parseYearLabel (formatLabel Freq.Y p) = some p := by
  unfold parseYearLabel
  rw [show (formatLabel Freq.Y p).data = (Nat.repr p).data from rfl,
    show (Nat.repr p).data = (Nat.repr p).data ++ [] from (List.append_nil _).symm,
    span_all_append _ _ _ (repr_data_all_digits _) (fun c cs h => by cases h)]
  show (if (Nat.repr p).data ≠ [] then some (digitsToNat (Nat.repr p).data)
        else none) = some p
  rw [if_pos (repr_data_ne_nil _), digitsToNat_repr]

/-- C6: `_convert_date` maps every label of the frequency's grammar (exactly
the labels `_build_time_chunks` emits) to the start instant of the labelled
period — the parser is the inverse of the label formatter — and every label
that fails to parse is returned unchanged as the original string; no input
is dropped. -/
theorem C6_convert_date (freq : Freq) (p : Nat) (s : String)
    (hfail : parseLabel freq s = none) :
    convert_date freq (formatLabel freq p) = DateVal.ts (periodStartTime freq p) ∧
    convert_date freq s = DateVal.orig s := by
  constructor
  · unfold convert_date
    cases freq with
    | Q =>
      rw [show parseLabel Freq.Q (formatLabel Freq.Q p)
          = parseQuarterLabel (formatLabel Freq.Q p) from rfl, parseQuarter_format]
    | M =>
      rw [show parseLabel Freq.M (formatLabel Freq.M p)
          = parseMonthLabel (formatLabel Freq.M p) from rfl, parseMonth_format]
    | Y =>
      rw [show parseLabel Freq.Y (formatLabel Freq.Y p)
          = parseYearLabel (formatLabel Freq.Y p) from rfl, parseYear_format]
  · unfold convert_date
    rw [hfail]

theorem C6_convert_date_witness :
    parseLabel Freq.Q "not a label" = none ∧
    (convert_date Freq.Q (formatLabel Freq.Q 8097)
        = DateVal.ts (periodStartTime Freq.Q 8097) ∧
     convert_date Freq.Q "not a label" = DateVal.orig "not a label") :=
  ⟨by decide, C6_convert_date Freq.Q 8097 "not a label" (by decide)⟩

/-! ### Heap model of `_deep_merge` mutation behavior (C10)

To state that `_deep_merge` mutates neither of its arguments, the Python
object graph is made explicit: dict objects live at addresses in a heap,
dict values are primitives or references to dict objects.  `copy.deepcopy`
allocates fresh addresses; `merged[key] = v` mutates the object at
`merged`'s address in place.  Fuel bounds the recursion depth (Python would
hit its recursion limit); every theorem holds for every fuel. -/

/-- A Python value as stored in a dict: an immutable primitive, or a
reference to a dict object (addresses are natural numbers). -/
inductive HVal where
  | prim : String → HVal
  | ref : Nat → HVal
deriving DecidableEq

/-- The heap: an allocation counter and the live dict objects. -/
structure Heap where
  next : Nat
  objs : List (Nat × List (String × HVal))
deriving DecidableEq

/-- The entries of the dict object at `a`, if allocated. -/
def Heap.get (h : Heap) (a : Nat) : Option (List (String × HVal)) :=
  lookupKey h.objs a

/-- Mutate the dict object at `a` in place. -/
def Heap.set (h : Heap) (a : Nat) (e : List (String × HVal)) : Heap :=
  ⟨h.next, h.objs.map (fun p => if p.1 = a then (a, e) else p)⟩

/-- Allocate a fresh dict object. -/
def Heap.alloc (h : Heap) (e : List (String × HVal)) : Heap × Nat :=
  (⟨h.next + 1, (h.next, e) :: h.objs⟩, h.next)

/-- Every live address is below the allocation counter. -/
def Heap.WF (h : Heap) : Prop := ∀ p ∈ h.objs, p.1 < h.next

/-- Python `d[k] = v` on a dict body. -/
def dictSetH (d : List (String × HVal)) (k : String) (v : HVal) :
    List (String × HVal) :=
  if d.any (fun p => p.1 = k) then
    d.map (fun p => if p.1 = k then (k, v) else p)
  else d ++ [(k, v)]

mutual

/-- `copy.deepcopy` of one value: primitives are immediate; a reference is
copied by recursively copying the entries and allocating a fresh object. -/
def copyVal : Nat → Heap → HVal → Option (Heap × HVal)
  | _, h, HVal.prim s => some (h, HVal.prim s)
  | 0, _, HVal.ref _ => none
  | fuel + 1, h, HVal.ref a => do
    let e ← h.get a
    let (h1, e1) ← copyEntries fuel h e
    let r := h1.alloc e1
    some (r.1, HVal.ref r.2)
termination_by structural fuel _ _ => fuel

/-- `copy.deepcopy` of a dict body, entry by entry. -/
def copyEntries : Nat → Heap → List (String × HVal) →
    Option (Heap × List (String × HVal))
  | _, h, [] => some (h, [])
  | 0, _, _ :: _ => none
  | fuel + 1, h, (k, v) :: rest => do
    let (h1, v1) ← copyVal fuel h v
    let (h2, r1) ← copyEntries fuel h1 rest
    some (h2, (k, v1) :: r1)
termination_by structural fuel _ _ => fuel

end

mutual

/-- `RecipeLoader._deep_merge` over the heap: `merged = copy.deepcopy(source)`
(a fresh object), then the loop over the overrides' entries; the result is
the heap after the call and `merged`'s address. -/
def hMerge : Nat → Heap → Nat → Nat → Option (Heap × Nat)
  | 0, _, _, _ => none
  | fuel + 1, h, src, ovr => do
    let (h1, mv) ← copyVal (fuel + 1) h (HVal.ref src)
    match mv with
    | HVal.ref mAddr => do
      let oEntries ← h1.get ovr
      let h2 ← hMergeLoop fuel h1 mAddr oEntries
      some (h2, mAddr)
    | HVal.prim _ => none
termination_by structural fuel _ _ _ => fuel

/-- One iteration of the `_deep_merge` loop: if the key is in `merged` and
both values are dicts, recursively merge and store the result's reference;
otherwise `merged[key] = override_value`.  (The fuel only bounds the
recursion depth of the nested merge.) -/
def hMergeBody : Nat → Heap → Nat → String → HVal → List (String × HVal) →
    Option Heap
  | 0, h, mAddr, k, ov, mEntries =>
    match lookupKey mEntries k, ov with
    | some (HVal.ref _), HVal.ref _ => none
    | _, _ => some (h.set mAddr (dictSetH mEntries k ov))
  | fuel + 1, h, mAddr, k, ov, mEntries =>
    match lookupKey mEntries k, ov with
    | some (HVal.ref ma), HVal.ref oa => do
      let (h2, sub) ← hMerge fuel h ma oa
      let mE2 ← h2.get mAddr
      some (h2.set mAddr (dictSetH mE2 k (HVal.ref sub)))
    | _, _ => some (h.set mAddr (dictSetH mEntries k ov))
termination_by structural fuel _ _ _ _ _ => fuel

/-- The `for key, override_value in overrides.items()` loop. -/
def hMergeLoop : Nat → Heap → Nat → List (String × HVal) → Option Heap
  | _, h, _, [] => some h
  | 0, _, _, _ :: _ => none
  | fuel + 1, h, mAddr, (k, ov) :: rest => do
    let mEntries ← h.get mAddr
    let h' ← hMergeBody fuel h mAddr k ov mEntries
    hMergeLoop fuel h' mAddr rest
termination_by structural fuel _ _ _ => fuel

end

theorem Heap.get_set_ne (h : Heap) (b : Nat) (e : List (String × HVal))
    (a : Nat) (hne : a ≠ b) : (h.set b e).get a = h.get a :=
  lookupKey_map_set_ne h.objs b e a hne

theorem Heap.next_set (h : Heap) (b : Nat) (e : List (String × HVal)) :
    (h.set b e).next = h.next := rfl

theorem Heap.get_alloc_old (h : Heap) (e : List (String × HVal)) (a : Nat)
    (ha : a < h.next) : (h.alloc e).1.get a = h.get a := by
  show lookupKey ((h.next, e) :: h.objs) a = lookupKey h.objs a
  rw [lookupKey_cons, if_neg (show h.next ≠ a by omega)]

theorem Heap.wf_set (h : Heap) (b : Nat) (e : List (String × HVal))
    (hwf : h.WF) : (h.set b e).WF := by
  intro p hp
  obtain ⟨q, hq, rfl⟩ := List.mem_map.mp hp
  by_cases hqb : q.1 = b
  · rw [if_pos hqb]
    show b < h.next
    rw [← hqb]
    exact hwf q hq
  · rw [if_neg hqb]
    exact hwf q hq

theorem Heap.wf_alloc (h : Heap) (e : List (String × HVal)) (hwf : h.WF) :
    (h.alloc e).1.WF := by
  intro p hp
  have hp2 : p ∈ (h.next, e) :: h.objs := hp
  rcases List.mem_cons.mp hp2 with rfl | hp'
  · show h.next < h.next + 1
    omega
  · have h3 := hwf p hp'
    show p.1 < h.next + 1
    omega

/-- `copy.deepcopy` only allocates: the allocation counter grows, every
pre-existing object is unchanged, well-formedness is preserved, and a
returned reference is to a freshly allocated object. -/
theorem copy_pres : ∀ fuel : Nat,
    (∀ h v h' v', copyVal fuel h v = some (h', v') →
      h.next ≤ h'.next ∧ (∀ a, a < h.next → h'.get a = h.get a) ∧
      (Heap.WF h → Heap.WF h') ∧
      (∀ b, v' = HVal.ref b → h.next ≤ b ∧ b < h'.next)) ∧
    (∀ h l h' l', copyEntries fuel h l = some (h', l') →
      h.next ≤ h'.next ∧ (∀ a, a < h.next → h'.get a = h.get a) ∧
      (Heap.WF h → Heap.WF h')) := by
  intro fuel
  induction fuel with
  | zero =>
    constructor
    · intro h v h' v' hcv
      cases v with
      | prim s =>
        rw [show copyVal 0 h (HVal.prim s) = some (h, HVal.prim s) from rfl]
          at hcv
        injection hcv with h1
        have hh : h = h' := congrArg Prod.fst h1
        have hv : HVal.prim s = v' := congrArg Prod.snd h1
        subst hh
        refine ⟨Nat.le_refl _, fun a _ => rfl, id, ?_⟩
        intro b hb
        rw [← hv] at hb
        cases hb
      | ref a => cases hcv
    · intro h l h' l' hce
      cases l with
      | nil =>
        rw [show copyEntries 0 h [] = some (h, []) from rfl] at hce
        injection hce with h1
        obtain rfl : h = h' := congrArg Prod.fst h1
        exact ⟨Nat.le_refl _, fun a _ => rfl, id⟩
      | cons hd tl => cases hce
  | succ fuel ih =>
    obtain ⟨ihv, ihe⟩ := ih
    constructor
    · intro h v h' v' hcv
      cases v with
      | prim s =>
        rw [show copyVal (fuel + 1) h (HVal.prim s) = some (h, HVal.prim s)
          from rfl] at hcv
        injection hcv with h1
        have hh : h = h' := congrArg Prod.fst h1
        have hv : HVal.prim s = v' := congrArg Prod.snd h1
        subst hh
        refine ⟨Nat.le_refl _, fun a _ => rfl, id, ?_⟩
        intro b hb
        rw [← hv] at hb
        cases hb
      | ref a =>
        rw [show copyVal (fuel + 1) h (HVal.ref a)
            = (h.get a).bind (fun e =>
                (copyEntries fuel h e).bind (fun p =>
                  some ((p.1.alloc p.2).1, HVal.ref (p.1.alloc p.2).2)))
          from rfl] at hcv
        cases hget : h.get a with
        | none => rw [hget] at hcv; cases hcv
        | some e =>
          rw [hget] at hcv
          simp only [Option.bind] at hcv
          cases hce : copyEntries fuel h e with
          | none => rw [hce] at hcv; cases hcv
          | some pr =>
            obtain ⟨h1, e1⟩ := pr
            rw [hce] at hcv
            simp only at hcv
            injection hcv with h1eq
            have hh : (h1.alloc e1).1 = h' := congrArg Prod.fst h1eq
            have hv : HVal.ref (h1.alloc e1).2 = v' := congrArg Prod.snd h1eq
            obtain ⟨hle, hpres, hwf⟩ := ihe h e h1 e1 hce
            subst hh
            refine ⟨by show h.next ≤ h1.next + 1; omega, ?_, ?_, ?_⟩
            · intro b hb
              rw [Heap.get_alloc_old h1 e1 b (by omega), hpres b hb]
            · intro hwfh
              exact Heap.wf_alloc h1 e1 (hwf hwfh)
            · intro b hb
              rw [← hv] at hb
              injection hb with hb2
              show h.next ≤ b ∧ b < h1.next + 1
              rw [← hb2]
              show h.next ≤ h1.next ∧ h1.next < h1.next + 1
              omega
    · intro h l h' l' hce
      cases l with
      | nil =>
        rw [show copyEntries (fuel + 1) h [] = some (h, []) from rfl] at hce
        injection hce with h1
        have hh : h = h' := congrArg Prod.fst h1
        subst hh
        exact ⟨Nat.le_refl _, fun a _ => rfl, id⟩
      | cons hd tl =>
        obtain ⟨k, v⟩ := hd
        rw [show copyEntries (fuel + 1) h ((k, v) :: tl)
            = (copyVal fuel h v).bind (fun p1 =>
                (copyEntries fuel p1.1 tl).bind (fun p2 =>
                  some (p2.1, (k, p1.2) :: p2.2)))
          from rfl] at hce
        cases hcv : copyVal fuel h v with
        | none => rw [hcv] at hce; cases hce
        | some p1 =>
          obtain ⟨h1, v1⟩ := p1
          rw [hcv] at hce
          simp only [Option.bind] at hce
          cases hctl : copyEntries fuel h1 tl with
          | none => rw [hctl] at hce; cases hce
          | some p2 =>
            obtain ⟨h2, l2⟩ := p2
            rw [hctl] at hce
            simp only at hce
            injection hce with heq
            have hh : h2 = h' := congrArg Prod.fst heq
            subst hh
            obtain ⟨hle1, hpres1, hwf1, -⟩ := ihv h v h1 v1 hcv
            obtain ⟨hle2, hpres2, hwf2⟩ := ihe h1 tl h2 l2 hctl
            refine ⟨by omega, ?_, fun hw => hwf2 (hwf1 hw)⟩
            intro a ha
            rw [hpres2 a (by omega), hpres1 a ha]

theorem hMerge_succ (fuel : Nat) (h : Heap) (src ovr : Nat) :
    hMerge (fuel + 1) h src ovr
      = (copyVal (fuel + 1) h (HVal.ref src)).bind (fun pr =>
          match pr.2 with
          | HVal.ref mAddr =>
            (pr.1.get ovr).bind (fun oE =>
              (hMergeLoop fuel pr.1 mAddr oE).bind (fun h2 => some (h2, mAddr)))
          | HVal.prim _ => none) := rfl

theorem hMergeLoop_cons (fuel : Nat) (h : Heap) (mAddr : Nat) (k : String)
    (ov : HVal) (rest : List (String × HVal)) :
    hMergeLoop (fuel + 1) h mAddr ((k, ov) :: rest)
      = (h.get mAddr).bind (fun mE =>
          (hMergeBody fuel h mAddr k ov mE).bind (fun h' =>
            hMergeLoop fuel h' mAddr rest)) := rfl

theorem hMergeBody_of_ov_prim (fuel : Nat) (h : Heap) (mAddr : Nat)
    (k : String) (s : String) (mE : List (String × HVal)) :
    hMergeBody fuel h mAddr k (HVal.prim s) mE
      = some (h.set mAddr (dictSetH mE k (HVal.prim s))) := by
  cases fuel with
  | zero =>
    show (match lookupKey mE k, HVal.prim s with
          | some (HVal.ref _), HVal.ref _ => (none : Option Heap)
          | _, _ => some (h.set mAddr (dictSetH mE k (HVal.prim s)))) = _
    cases hlk : lookupKey mE k with
    | none => rfl
    | some w => cases w <;> rfl
  | succ f =>
    show (match lookupKey mE k, HVal.prim s with
          | some (HVal.ref ma), HVal.ref oa =>
            (hMerge f h ma oa).bind (fun pr =>
              (pr.1.get mAddr).bind (fun mE2 =>
                some (pr.1.set mAddr (dictSetH mE2 k (HVal.ref pr.2)))))
          | _, _ => some (h.set mAddr (dictSetH mE k (HVal.prim s)))) = _
    cases hlk : lookupKey mE k with
    | none => rfl
    | some w => cases w <;> rfl

theorem hMergeBody_of_lookup_none (fuel : Nat) (h : Heap) (mAddr : Nat)
    (k : String) (ov : HVal) (mE : List (String × HVal))
    (hlk : lookupKey mE k = none) :
    hMergeBody fuel h mAddr k ov mE
      = some (h.set mAddr (dictSetH mE k ov)) := by
  cases fuel with
  | zero =>
    show (match lookupKey mE k, ov with
          | some (HVal.ref _), HVal.ref _ => (none : Option Heap)
          | _, _ => some (h.set mAddr (dictSetH mE k ov))) = _
    rw [hlk]
  | succ f =>
    show (match lookupKey mE k, ov with
          | some (HVal.ref ma), HVal.ref oa =>
            (hMerge f h ma oa).bind (fun pr =>
              (pr.1.get mAddr).bind (fun mE2 =>
                some (pr.1.set mAddr (dictSetH mE2 k (HVal.ref pr.2)))))
          | _, _ => some (h.set mAddr (dictSetH mE k ov))) = _
    rw [hlk]

theorem hMergeBody_of_lookup_prim (fuel : Nat) (h : Heap) (mAddr : Nat)
    (k : String) (ov : HVal) (s : String) (mE : List (String × HVal))
    (hlk : lookupKey mE k = some (HVal.prim s)) :
    hMergeBody fuel h mAddr k ov mE
      = some (h.set mAddr (dictSetH mE k ov)) := by
  cases fuel with
  | zero =>
    show (match lookupKey mE k, ov with
          | some (HVal.ref _), HVal.ref _ => (none : Option Heap)
          | _, _ => some (h.set mAddr (dictSetH mE k ov))) = _
    rw [hlk]
  | succ f =>
    show (match lookupKey mE k, ov with
          | some (HVal.ref ma), HVal.ref oa =>
            (hMerge f h ma oa).bind (fun pr =>
              (pr.1.get mAddr).bind (fun mE2 =>
                some (pr.1.set mAddr (dictSetH mE2 k (HVal.ref pr.2)))))
          | _, _ => some (h.set mAddr (dictSetH mE k ov))) = _
    rw [hlk]

theorem hMergeBody_refref_zero (h : Heap) (mAddr : Nat) (k : String)
    (ma oa : Nat) (mE : List (String × HVal))
    (hlk : lookupKey mE k = some (HVal.ref ma)) :
    hMergeBody 0 h mAddr k (HVal.ref oa) mE = none := by
  show (match lookupKey mE k, HVal.ref oa with
        | some (HVal.ref _), HVal.ref _ => (none : Option Heap)
        | _, _ => some (h.set mAddr (dictSetH mE k (HVal.ref oa)))) = _
  rw [hlk]

instance (h : Heap) : Decidable h.WF :=
  show Decidable (∀ p ∈ h.objs, p.1 < h.next) from
    List.decidableBAll (fun p => p.1 < h.next) h.objs

theorem Heap.lt_next_of_get_some (h : Heap) (a : Nat)
    (e : List (String × HVal)) (hg : h.get a = some e) (hwf : h.WF) :
    a < h.next := by
  have hs : (lookupKey h.objs a).isSome := by
    rw [show h.get a = lookupKey h.objs a from rfl] at hg
    rw [hg]
    rfl
  rw [lookupKey_isSome_iff_mem] at hs
  obtain ⟨p, hp, rfl⟩ := List.mem_map.mp hs
  exact hwf p hp

theorem hMergeBody_refref_succ (fuel : Nat) (h : Heap) (mAddr : Nat)
    (k : String) (ma oa : Nat) (mE : List (String × HVal))
    (hlk : lookupKey mE k = some (HVal.ref ma)) :
    hMergeBody (fuel + 1) h mAddr k (HVal.ref oa) mE
      = (hMerge fuel h ma oa).bind (fun pr =>
          (pr.1.get mAddr).bind (fun mE2 =>
            some (pr.1.set mAddr (dictSetH mE2 k (HVal.ref pr.2))))) := by
  show (match lookupKey mE k, HVal.ref oa with
        | some (HVal.ref ma), HVal.ref oa =>
          (hMerge fuel h ma oa).bind (fun pr =>
            (pr.1.get mAddr).bind (fun mE2 =>
              some (pr.1.set mAddr (dictSetH mE2 k (HVal.ref pr.2)))))
        | _, _ => some (h.set mAddr (dictSetH mE k (HVal.ref oa)))) = _
  rw [hlk]

/-- `_deep_merge` over the heap only allocates fresh objects and mutates
freshly allocated ones: pre-existing objects (below a bound `B` that is at
or below both the entry allocation counter and the merged object's address)
are byte-for-byte unchanged. -/
theorem merge_pres : ∀ fuel : Nat,
    (∀ h src ovr h' r, hMerge fuel h src ovr = some (h', r) → Heap.WF h →
      h.next ≤ h'.next ∧ (∀ a, a < h.next → h'.get a = h.get a) ∧ Heap.WF h') ∧
    (∀ h mAddr k ov mE h' B, hMergeBody fuel h mAddr k ov mE = some h' →
      Heap.WF h → B ≤ mAddr → B ≤ h.next →
      h.next ≤ h'.next ∧ (∀ a, a < B → h'.get a = h.get a) ∧ Heap.WF h') ∧
    (∀ l h mAddr h' B, hMergeLoop fuel h mAddr l = some h' →
      Heap.WF h → B ≤ mAddr → B ≤ h.next →
      h.next ≤ h'.next ∧ (∀ a, a < B → h'.get a = h.get a) ∧ Heap.WF h') := by
  intro fuel
  induction fuel with
  | zero =>
    refine ⟨?_, ?_, ?_⟩
    · intro h src ovr h' r hm hwf
      rw [show hMerge 0 h src ovr = none from rfl] at hm
      cases hm
    · intro h mAddr k ov mE h' B hb hwf hBm hBn
      have hset : h' = h.set mAddr (dictSetH mE k ov) := by
        cases hlk : lookupKey mE k with
        | none =>
          rw [hMergeBody_of_lookup_none 0 h mAddr k ov mE hlk] at hb
          exact (Option.some.inj hb).symm
        | some w =>
          cases w with
          | prim s =>
            rw [hMergeBody_of_lookup_prim 0 h mAddr k ov s mE hlk] at hb
            exact (Option.some.inj hb).symm
          | ref ma =>
            cases ov with
            | prim s =>
              rw [hMergeBody_of_ov_prim 0 h mAddr k s mE] at hb
              exact (Option.some.inj hb).symm
            | ref oa =>
              rw [hMergeBody_refref_zero h mAddr k ma oa mE hlk] at hb
              cases hb
      subst hset
      exact ⟨Nat.le_refl _,
        fun a ha => Heap.get_set_ne h mAddr _ a (by omega),
        Heap.wf_set h mAddr _ hwf⟩
    · intro l h mAddr h' B hl hwf hBm hBn
      cases l with
      | nil =>
        have : h = h' := Option.some.inj hl
        subst this
        exact ⟨Nat.le_refl _, fun a _ => rfl, hwf⟩
      | cons hd tl =>
        obtain ⟨k, ov⟩ := hd
        cases hl
  | succ fuel ih =>
    obtain ⟨ihM, ihB, ihL⟩ := ih
    have hMergeCase : ∀ h src ovr h' r, hMerge (fuel + 1) h src ovr
        = some (h', r) → Heap.WF h →
        h.next ≤ h'.next ∧ (∀ a, a < h.next → h'.get a = h.get a) ∧
        Heap.WF h' := by
      intro h src ovr h' r hm hwf
      rw [hMerge_succ] at hm
      cases hcv : copyVal (fuel + 1) h (HVal.ref src) with
      | none => rw [hcv] at hm; cases hm
      | some pr =>
        obtain ⟨h1, mv⟩ := pr
        rw [hcv] at hm
        simp only [Option.bind] at hm
        cases mv with
        | prim s => cases hm
        | ref mAddr =>
          simp only at hm
          cases hovr : h1.get ovr with
          | none => rw [hovr] at hm; cases hm
          | some oE =>
            rw [hovr] at hm
            simp only [Option.bind] at hm
            cases hloop : hMergeLoop fuel h1 mAddr oE with
            | none => rw [hloop] at hm; cases hm
            | some h2 =>
              rw [hloop] at hm
              simp only at hm
              injection hm with hmeq
              have hh : h2 = h' := congrArg Prod.fst hmeq
              subst hh
              obtain ⟨hle1, hpres1, hwf1, hfresh⟩ :=
                (copy_pres (fuel + 1)).1 h (HVal.ref src) h1 (HVal.ref mAddr) hcv
              obtain ⟨hma1, hma2⟩ := hfresh mAddr rfl
              obtain ⟨hle2, hpres2, hwf2⟩ :=
                ihL oE h1 mAddr h2 h.next hloop (hwf1 hwf) hma1 hle1
              refine ⟨by omega, ?_, hwf2⟩
              intro a ha
              rw [hpres2 a ha, hpres1 a ha]
    refine ⟨hMergeCase, ?_, ?_⟩
    · intro h mAddr k ov mE h' B hb hwf hBm hBn
      cases hlk : lookupKey mE k with
      | none =>
        rw [hMergeBody_of_lookup_none _ h mAddr k ov mE hlk] at hb
        have hset : h' = h.set mAddr (dictSetH mE k ov) :=
          (Option.some.inj hb).symm
        subst hset
        exact ⟨Nat.le_refl _,
          fun a ha => Heap.get_set_ne h mAddr _ a (by omega),
          Heap.wf_set h mAddr _ hwf⟩
      | some w =>
        cases w with
        | prim s =>
          rw [hMergeBody_of_lookup_prim _ h mAddr k ov s mE hlk] at hb
          have hset : h' = h.set mAddr (dictSetH mE k ov) :=
            (Option.some.inj hb).symm
          subst hset
          exact ⟨Nat.le_refl _,
            fun a ha => Heap.get_set_ne h mAddr _ a (by omega),
            Heap.wf_set h mAddr _ hwf⟩
        | ref ma =>
          cases ov with
          | prim s =>
            rw [hMergeBody_of_ov_prim _ h mAddr k s mE] at hb
            have hset : h' = h.set mAddr (dictSetH mE k (HVal.prim s)) :=
              (Option.some.inj hb).symm
            subst hset
            exact ⟨Nat.le_refl _,
              fun a ha => Heap.get_set_ne h mAddr _ a (by omega),
              Heap.wf_set h mAddr _ hwf⟩
          | ref oa =>
            rw [hMergeBody_refref_succ fuel h mAddr k ma oa mE hlk] at hb
            cases hsub : hMerge fuel h ma oa with
            | none => rw [hsub] at hb; cases hb
            | some pr =>
              obtain ⟨h2, sub⟩ := pr
              rw [hsub] at hb
              simp only [Option.bind] at hb
              cases hmE2 : h2.get mAddr with
              | none => rw [hmE2] at hb; cases hb
              | some mE2 =>
                rw [hmE2] at hb
                simp only at hb
                have hset : h' = h2.set mAddr (dictSetH mE2 k (HVal.ref sub)) :=
                  (Option.some.inj hb).symm
                subst hset
                obtain ⟨hle1, hpres1, hwf1⟩ := ihM h ma oa h2 sub hsub hwf
                refine ⟨by rw [Heap.next_set]; omega, ?_,
                  Heap.wf_set h2 mAddr _ hwf1⟩
                intro a ha
                rw [Heap.get_set_ne h2 mAddr _ a (by omega), hpres1 a (by omega)]
    · intro l h mAddr h' B hl hwf hBm hBn
      cases l with
      | nil =>
        have : h = h' := Option.some.inj hl
        subst this
        exact ⟨Nat.le_refl _, fun a _ => rfl, hwf⟩
      | cons hd tl =>
        obtain ⟨k, ov⟩ := hd
        rw [hMergeLoop_cons] at hl
        cases hmE : h.get mAddr with
        | none => rw [hmE] at hl; cases hl
        | some mE =>
          rw [hmE] at hl
          simp only [Option.bind] at hl
          cases hbody : hMergeBody fuel h mAddr k ov mE with
          | none => rw [hbody] at hl; cases hl
          | some h1 =>
            rw [hbody] at hl
            simp only at hl
            obtain ⟨hle1, hpres1, hwf1⟩ :=
              ihB h mAddr k ov mE h1 B hbody hwf hBm hBn
            obtain ⟨hle2, hpres2, hwf2⟩ :=
              ihL tl h1 mAddr h' B hl hwf1 hBm (by omega)
            refine ⟨by omega, ?_, hwf2⟩
            intro a ha
            rw [hpres2 a ha, hpres1 a ha]

/-- C10: `_deep_merge(source, overrides)` mutates neither of its arguments:
it builds its result from a deep copy of `source`, so for every heap
well-formed at entry in which both argument objects are live, every
pre-existing object — in particular the `source` and `overrides` object
graphs — holds exactly the same entries after the call, the allocation
counter only grows, and well-formedness is preserved. -/
theorem C10_deep_merge_mutates_neither_argument (fuel : Nat) (h h' : Heap)
    (src ovr r : Nat) (hwf : Heap.WF h) (hsrc : src < h.next)
    (hovr : ovr < h.next) (hm : hMerge fuel h src ovr = some (h', r)) :
    h'.get src = h.get src ∧ h'.get ovr = h.get ovr ∧
    (∀ a, a < h.next → h'.get a = h.get a) ∧
    h.next ≤ h'.next ∧ Heap.WF h' := by
  obtain ⟨hle, hpres, hwf'⟩ := (merge_pres fuel).1 h src ovr h' r hm hwf
  exact ⟨hpres src hsrc, hpres ovr hovr, hpres, hle, hwf'⟩

theorem C10_deep_merge_mutates_neither_argument_witness :
    Heap.WF ⟨2, [(0, [("a", HVal.prim "1")]), (1, [("b", HVal.prim "2")])]⟩ ∧
    (0 : Nat) < 2 ∧ (1 : Nat) < 2 ∧
    hMerge 5 ⟨2, [(0, [("a", HVal.prim "1")]), (1, [("b", HVal.prim "2")])]⟩ 0 1
      = some (⟨3, [(2, [("a", HVal.prim "1"), ("b", HVal.prim "2")]),
                   (0, [("a", HVal.prim "1")]),
                   (1, [("b", HVal.prim "2")])]⟩, 2) ∧
    ((⟨3, [(2, [("a", HVal.prim "1"), ("b", HVal.prim "2")]),
           (0, [("a", HVal.prim "1")]),
           (1, [("b", HVal.prim "2")])]⟩ : Heap).get 0
        = (⟨2, [(0, [("a", HVal.prim "1")]),
                (1, [("b", HVal.prim "2")])]⟩ : Heap).get 0 ∧
     (⟨3, [(2, [("a", HVal.prim "1"), ("b", HVal.prim "2")]),
           (0, [("a", HVal.prim "1")]),
           (1, [("b", HVal.prim "2")])]⟩ : Heap).get 1
        = (⟨2, [(0, [("a", HVal.prim "1")]),
                (1, [("b", HVal.prim "2")])]⟩ : Heap).get 1 ∧
     (∀ a, a < (⟨2, [(0, [("a", HVal.prim "1")]),
                     (1, [("b", HVal.prim "2")])]⟩ : Heap).next →
       (⟨3, [(2, [("a", HVal.prim "1"), ("b", HVal.prim "2")]),
             (0, [("a", HVal.prim "1")]),
             (1, [("b", HVal.prim "2")])]⟩ : Heap).get a
         = (⟨2, [(0, [("a", HVal.prim "1")]),
                 (1, [("b", HVal.prim "2")])]⟩ : Heap).get a) ∧
     (⟨2, [(0, [("a", HVal.prim "1")]),
           (1, [("b", HVal.prim "2")])]⟩ : Heap).next
       ≤ (⟨3, [(2, [("a", HVal.prim "1"), ("b", HVal.prim "2")]),
               (0, [("a", HVal.prim "1")]),
               (1, [("b", HVal.prim "2")])]⟩ : Heap).next ∧
     Heap.WF ⟨3, [(2, [("a", HVal.prim "1"), ("b", HVal.prim "2")]),
                  (0, [("a", HVal.prim "1")]),
                  (1, [("b", HVal.prim "2")])]⟩) :=
  ⟨by decide, by decide, by decide, by decide,
    C10_deep_merge_mutates_neither_argument 5
      ⟨2, [(0, [("a", HVal.prim "1")]), (1, [("b", HVal.prim "2")])]⟩
      ⟨3, [(2, [("a", HVal.prim "1"), ("b", HVal.prim "2")]),
           (0, [("a", HVal.prim "1")]),
           (1, [("b", HVal.prim "2")])]⟩
      0 1 2 (by decide) (by decide) (by decide) (by decide)⟩

end OECD
